import Mathlib

/-!
Verification of the SBUS streaming decoder (sbus-rs).

The streaming synchronizer (src/streaming.rs) is embedded shallowly:
byte buffers are lists of naturals, u32 counters are naturals with
explicit saturation at 2^32 - 1 (u32::saturating_add), and every array
index performed by the Rust code is modelled through Option-returning
read/write primitives whose none branch corresponds to an out-of-bounds
panic.  The frame codec (SbusPacket::from_array, packing) is not part of
the sources and is modelled from the specification.
-/

namespace SbusProof

/-- Reads index i of a list, none when out of bounds (a Rust index panic). -/
def readAt : List Nat → Nat → Option Nat
  | [], _ => none
  | b :: _, 0 => some b
  | _ :: t, i + 1 => readAt t i

/-- Writes value v at index i, none when out of bounds (a Rust index panic). -/
def writeAt : List Nat → Nat → Nat → Option (List Nat)
  | [], _, _ => none
  | _ :: t, 0, v => some (v :: t)
  | b :: t, i + 1, v =>
    match writeAt t i v with
    | none => none
    | some t2 => some (b :: t2)

/-- Total read with default 0; used to state properties about buffer contents. -/
def byteAt (l : List Nat) (i : Nat) : Nat :=
  match readAt l i with
  | none => 0
  | some v => v

/-- Value of a little-endian digit list in base B. -/
def digitsVal (B : Nat) : List Nat → Nat
  | [] => 0
  | d :: ds => d + B * digitsVal B ds

/-- Frame length in bytes (protocol constant, 25). -/
def SBUS_FRAME_LENGTH : Nat := 25

/-- Header byte value (protocol constant, 0x0F). -/
def SBUS_HEADER : Nat := 15

/-- Footer byte value (protocol constant, 0x00). -/
def SBUS_FOOTER : Nat := 0

/-- Error type of src/src/error.rs (ReadError, InvalidHeader, InvalidFooter). -/
inductive SbusError where
  | ReadError : SbusError
  | InvalidHeader : Nat → SbusError
  | InvalidFooter : Nat → SbusError
deriving DecidableEq

/-- The four status flags of a decoded packet (bit0 d1, bit1 d2, bit2 frame-lost, bit3 failsafe). -/
structure SbusFlags where
  d1 : Bool
  d2 : Bool
  frame_lost : Bool
  failsafe : Bool
deriving DecidableEq

/-- A decoded SBUS packet: 16 channel values and the four flags. -/
structure SbusPacket where
  channels : List Nat
  flags : SbusFlags
deriving DecidableEq

/-- Modelled from the spec: decoding of the flag byte, low four bits. -/
def flagsOfByte (b : Nat) : SbusFlags :=
  ⟨Nat.testBit b 0, Nat.testBit b 1, Nat.testBit b 2, Nat.testBit b 3⟩

/-- Modelled from the spec: encoding of the four flags into a flag byte. -/
def flagsToByte (fl : SbusFlags) : Nat :=
  (cond fl.d1 1 0) + 2 * (cond fl.d2 1 0) + 4 * (cond fl.frame_lost 1 0) +
    8 * (cond fl.failsafe 1 0)

/-- The 176-bit little-endian payload value encoded by bytes 1..22 of a frame. -/
def payloadVal (f : List Nat) : Nat :=
  digitsVal 256 ((List.range 22).map (fun j => byteAt f (j + 1)))

/-- Modelled from the spec: SbusPacket::from_array (the codec unpack, absent from src/).
It validates the header byte, the footer byte and the reserved high bits of the
flag byte, then extracts the 16 channels from the little-endian 176-bit stream
over bytes 1..22 and the four flag bits. The reserved-bit violation is reported
as the InvalidFooter-class error carrying the flag byte, per the spec. -/
def SbusPacket.fromArray (f : List Nat) : Except SbusError SbusPacket :=
  if byteAt f 0 ≠ SBUS_HEADER then .error (.InvalidHeader (byteAt f 0))
  else if byteAt f 24 ≠ SBUS_FOOTER then .error (.InvalidFooter (byteAt f 24))
  else if Nat.land (byteAt f 23) 240 ≠ 0 then .error (.InvalidFooter (byteAt f 23))
  else .ok ⟨(List.range 16).map (fun i => payloadVal f / 2 ^ (11 * i) % 2048),
    flagsOfByte (byteAt f 23)⟩

/-- The packed channel payload: channel i occupies bits 11i..11i+10, each value
masked to 11 bits. -/
def channelsVal (cs : List Nat) : Nat :=
  digitsVal 2048 (cs.map (· % 2048))

/-- Modelled from the spec: pack (the codec encoder, absent from src/). Header at
index 0, 22 payload bytes, flag byte at index 23, footer at index 24. -/
def packFrame (cs : List Nat) (fl : SbusFlags) : List Nat :=
  SBUS_HEADER :: ((List.range 22).map (fun j => channelsVal cs / 256 ^ j % 256) ++
    [flagsToByte fl, SBUS_FOOTER])

/-- Largest u32 value; the Rust counters saturate here. -/
def U32_MAX : Nat := 4294967295

/-- Nat model of u32::saturating_add. -/
def satAdd (a b : Nat) : Nat := min (a + b) U32_MAX

/-- Statistics record of the streaming parser (struct StreamingStats). -/
structure StreamingStats where
  frames_decoded : Nat
  sync_losses : Nat
  bytes_discarded : Nat
deriving DecidableEq

/-- State of the streaming parser (struct StreamingParser): 25-byte buffer,
cursor, statistics. -/
structure StreamingParser where
  buffer : List Nat
  pos : Nat
  stats : StreamingStats
deriving DecidableEq

/-- StreamingParser::new(). -/
def StreamingParser.new : StreamingParser :=
  ⟨List.replicate 25 0, 0, ⟨0, 0, 0⟩⟩

/-- StreamingParser::reset(): clears the cursor, keeps buffer and statistics. -/
def StreamingParser.reset (s : StreamingParser) : StreamingParser :=
  { s with pos := 0 }

/-- The header scan of resync: for i in 1..pos, return the first i with
buffer i equal to the header byte. The fuel argument counts the remaining
iterations; a read out of bounds is a panic (outer none). -/
def findHdrGo (buf : List Nat) : Nat → Nat → Option (Option Nat)
  | _, 0 => some none
  | i, fuel + 1 =>
    match readAt buf i with
    | none => none
    | some b => if b = SBUS_HEADER then some (some i) else findHdrGo buf (i + 1) fuel

/-- The shift loop of resync: for j in 0..remaining, buffer j gets buffer (i+j).
The fuel argument counts the remaining iterations. -/
def shiftGo : List Nat → Nat → Nat → Nat → Option (List Nat)
  | buf, _, _, 0 => some buf
  | buf, i, j, fuel + 1 =>
    match readAt buf (i + j) with
    | none => none
    | some v =>
      match writeAt buf j v with
      | none => none
      | some buf2 => shiftGo buf2 i (j + 1) fuel

/-- StreamingParser::resync(): increment sync_losses, scan indices 1..pos for a
header byte; if found at i, shift the tail to the front, set pos to pos - i and
count i discarded bytes; otherwise drop everything (pos discarded bytes). -/
def resync (s : StreamingParser) : Option StreamingParser :=
  match findHdrGo s.buffer 1 (s.pos - 1) with
  | none => none
  | some (some i) =>
    match shiftGo s.buffer i 0 (s.pos - i) with
    | none => none
    | some buf2 =>
      some { buffer := buf2, pos := s.pos - i,
             stats := { frames_decoded := s.stats.frames_decoded,
                        sync_losses := satAdd s.stats.sync_losses 1,
                        bytes_discarded := satAdd s.stats.bytes_discarded i } }
  | some none =>
    some { s with
      pos := 0,
      stats := { s.stats with
        sync_losses := satAdd s.stats.sync_losses 1,
        bytes_discarded := satAdd s.stats.bytes_discarded s.pos } }

/-- StreamingParser::push_byte(): the core state machine. Returns none exactly
when the Rust code would panic on an out-of-bounds buffer index. -/
def pushByte (s : StreamingParser) (b : Nat) :
    Option (StreamingParser × Except SbusError (Option SbusPacket)) :=
  if s.pos = 0 then
    if b = SBUS_HEADER then
      match writeAt s.buffer 0 b with
      | none => none
      | some buf2 => some ({ s with buffer := buf2, pos := 1 }, .ok none)
    else
      some ({ s with stats := { s.stats with
        bytes_discarded := satAdd s.stats.bytes_discarded 1 } }, .ok none)
  else
    match writeAt s.buffer s.pos b with
    | none => none
    | some buf2 =>
      if s.pos + 1 = SBUS_FRAME_LENGTH then
        match readAt buf2 (SBUS_FRAME_LENGTH - 1) with
        | none => none
        | some last =>
          if last = SBUS_FOOTER then
            match SbusPacket.fromArray buf2 with
            | .ok packet =>
              some ({ buffer := buf2, pos := 0,
                      stats := { s.stats with
                        frames_decoded := satAdd s.stats.frames_decoded 1 } },
                    .ok (some packet))
            | .error e =>
              match resync { buffer := buf2, pos := s.pos + 1, stats := s.stats } with
              | none => none
              | some s2 => some (s2, .error e)
          else
            match resync { buffer := buf2, pos := s.pos + 1, stats := s.stats } with
            | none => none
            | some s2 => some (s2, .ok none)
      else
        some ({ s with buffer := buf2, pos := s.pos + 1 }, .ok none)

/-- Feeding a byte list with push_byte one byte at a time, collecting every
non-trivial outcome (decoded packet or error) in input order. -/
def feedAll : StreamingParser → List Nat →
    Option (StreamingParser × List (Except SbusError SbusPacket))
  | s, [] => some (s, [])
  | s, b :: rest =>
    match pushByte s b with
    | none => none
    | some (s2, r) =>
      match feedAll s2 rest with
      | none => none
      | some (s3, out) =>
        match r with
        | .ok none => some (s3, out)
        | .ok (some p) => some (s3, .ok p :: out)
        | .error e => some (s3, .error e :: out)

/-- StreamingIterator::next(): pushes bytes until an outcome is produced or the
chunk is exhausted; returns the outcome, the parser state and the unread rest. -/
def iterNext : StreamingParser → List Nat →
    Option (Option (Except SbusError SbusPacket) × StreamingParser × List Nat)
  | s, [] => some (none, s, [])
  | s, b :: rest =>
    match pushByte s b with
    | none => none
    | some (s2, .ok (some p)) => some (some (.ok p), s2, rest)
    | some (s2, .error e) => some (some (.error e), s2, rest)
    | some (s2, .ok none) => iterNext s2 rest

/-- Repeatedly calling next() until it reports exhaustion, collecting the
yielded items. Each successful next() consumes at least one byte, so the fuel
argument only needs to exceed the chunk length. -/
def drainFuel : Nat → StreamingParser → List Nat →
    Option (StreamingParser × List (Except SbusError SbusPacket))
  | 0, _, _ => none
  | fuel + 1, s, data =>
    match iterNext s data with
    | none => none
    | some (none, s2, _) => some (s2, [])
    | some (some r, s2, rest) =>
      match drainFuel fuel s2 rest with
      | none => none
      | some (s3, out) => some (s3, r :: out)

/-- Exhausting the iterator returned by push_bytes on a chunk. -/
def drainIter (s : StreamingParser) (data : List Nat) :
    Option (StreamingParser × List (Except SbusError SbusPacket)) :=
  drainFuel (data.length + 1) s data

/-- Number of decoded packets in an outcome list. -/
def okCount : List (Except SbusError SbusPacket) → Nat
  | [] => 0
  | .ok _ :: rest => okCount rest + 1
  | .error _ :: rest => okCount rest

/-- A structurally valid frame: 25 bytes, header at 0, footer at 24, reserved
flag bits clear. -/
def ValidFrame (F : List Nat) : Prop :=
  F.length = 25 ∧ byteAt F 0 = 15 ∧ byteAt F 24 = 0 ∧ Nat.land (byteAt F 23) 240 = 0

/-- Parser states observable between operations: reachable from
StreamingParser::new() by any interleaving of push_byte, push_bytes (iterator
fully exhausted) and reset. -/
inductive Reachable : StreamingParser → Prop where
  | new : Reachable StreamingParser.new
  | push {s s2 : StreamingParser} {b : Nat} {r : Except SbusError (Option SbusPacket)} :
      Reachable s → pushByte s b = some (s2, r) → Reachable s2
  | chunk {s s2 : StreamingParser} {data : List Nat}
      {out : List (Except SbusError SbusPacket)} :
      Reachable s → drainIter s data = some (s2, out) → Reachable s2
  | reset {s : StreamingParser} : Reachable s → Reachable s.reset

/-- Well-formedness of a parser state: buffer of frame length, cursor within
bounds, and a header byte at the front of any partial accumulation. -/
def Wf (s : StreamingParser) : Prop :=
  s.buffer.length = 25 ∧ s.pos ≤ 24 ∧ (0 < s.pos → byteAt s.buffer 0 = 15)

/-- The all-zero valid frame: header, 22 zero payload bytes, zero flags, footer. -/
def zeroFrame : List Nat := 15 :: List.replicate 24 0

/-- The packet decoded from the all-zero frame. -/
def zeroPacket : SbusPacket :=
  ⟨List.replicate 16 0, ⟨false, false, false, false⟩⟩

theorem readAt_isSome {l : List Nat} {i : Nat} (h : i < l.length) :
    ∃ v, readAt l i = some v := by
  induction l generalizing i with
  | nil => simp at h
  | cons b t ih =>
    cases i with
    | zero => exact ⟨b, rfl⟩
    | succ j => exact ih (by simpa using h)

theorem readAt_eq_byteAt {l : List Nat} {i : Nat} (h : i < l.length) :
    readAt l i = some (byteAt l i) := by
  obtain ⟨v, hv⟩ := readAt_isSome h
  simp [byteAt, hv]

theorem readAt_none_of_ge {l : List Nat} {i : Nat} (h : l.length ≤ i) :
    readAt l i = none := by
  induction l generalizing i with
  | nil => cases i <;> rfl
  | cons b t ih =>
    cases i with
    | zero => simp at h
    | succ j => exact ih (by simpa using h)

theorem byteAt_of_ge {l : List Nat} {i : Nat} (h : l.length ≤ i) :
    byteAt l i = 0 := by
  simp [byteAt, readAt_none_of_ge h]

theorem writeAt_isSome {l : List Nat} {i : Nat} (v : Nat) (h : i < l.length) :
    ∃ l2, writeAt l i v = some l2 := by
  induction l generalizing i with
  | nil => simp at h
  | cons b t ih =>
    cases i with
    | zero => exact ⟨v :: t, rfl⟩
    | succ j =>
      obtain ⟨t2, ht2⟩ := ih (i := j) (by simpa using h)
      exact ⟨b :: t2, by simp [writeAt, ht2]⟩

theorem writeAt_length {l l2 : List Nat} {i v : Nat} (h : writeAt l i v = some l2) :
    l2.length = l.length := by
  induction l generalizing i l2 with
  | nil => simp [writeAt] at h
  | cons b t ih =>
    cases i with
    | zero =>
      simp [writeAt] at h
      subst h; rfl
    | succ j =>
      simp only [writeAt] at h
      cases ht : writeAt t j v with
      | none => rw [ht] at h; simp at h
      | some t2 =>
        rw [ht] at h
        simp at h
        subst h
        simp [ih ht]

theorem byteAt_writeAt_eq {l l2 : List Nat} {i v : Nat} (h : writeAt l i v = some l2) :
    byteAt l2 i = v := by
  induction l generalizing i l2 with
  | nil => simp [writeAt] at h
  | cons b t ih =>
    cases i with
    | zero =>
      simp [writeAt] at h
      subst h; rfl
    | succ j =>
      simp only [writeAt] at h
      cases ht : writeAt t j v with
      | none => rw [ht] at h; simp at h
      | some t2 =>
        rw [ht] at h
        simp at h
        subst h
        simpa [byteAt, readAt] using ih ht

theorem byteAt_writeAt_ne {l l2 : List Nat} {i v : Nat} (h : writeAt l i v = some l2)
    {j : Nat} (hij : j ≠ i) : byteAt l2 j = byteAt l j := by
  induction l generalizing i j l2 with
  | nil => simp [writeAt] at h
  | cons b t ih =>
    cases i with
    | zero =>
      simp [writeAt] at h
      subst h
      cases j with
      | zero => exact absurd rfl hij
      | succ k => rfl
    | succ i2 =>
      simp only [writeAt] at h
      cases ht : writeAt t i2 v with
      | none => rw [ht] at h; simp at h
      | some t2 =>
        rw [ht] at h
        simp at h
        subst h
        cases j with
        | zero => rfl
        | succ k =>
          have : k ≠ i2 := fun hk => hij (by rw [hk])
          simpa [byteAt, readAt] using ih ht this

theorem writeAt_lt {l l2 : List Nat} {i v : Nat} (h : writeAt l i v = some l2) :
    i < l.length := by
  induction l generalizing i l2 with
  | nil => simp [writeAt] at h
  | cons b t ih =>
    cases i with
    | zero => simp
    | succ j =>
      simp only [writeAt] at h
      cases ht : writeAt t j v with
      | none => rw [ht] at h; simp at h
      | some t2 => simpa using Nat.succ_lt_succ (ih ht)

theorem readAt_writeAt_eq {l l2 : List Nat} {i v : Nat} (h : writeAt l i v = some l2) :
    readAt l2 i = some v := by
  have hi : i < l.length := writeAt_lt h
  rw [readAt_eq_byteAt (by rw [writeAt_length h]; exact hi), byteAt_writeAt_eq h]

theorem byteAt_append (a b : List Nat) (i : Nat) :
    byteAt (a ++ b) i = if i < a.length then byteAt a i else byteAt b (i - a.length) := by
  induction a generalizing i with
  | nil => simp [byteAt]
  | cons x t ih =>
    cases i with
    | zero => simp [byteAt, readAt]
    | succ j =>
      have h1 : byteAt (x :: t ++ b) (j + 1) = byteAt (t ++ b) j := by
        simp [byteAt, readAt]
      rw [h1, ih j]
      have h2 : byteAt (x :: t) (j + 1) = byteAt t j := by
        simp [byteAt, readAt]
      simp only [List.length_cons, h2]
      have h3 : j + 1 - (t.length + 1) = j - t.length := by omega
      rw [h3]
      by_cases hj : j < t.length
      · rw [if_pos hj, if_pos (by omega)]
      · rw [if_neg hj, if_neg (by omega)]

theorem byteAt_append_left {a : List Nat} (b : List Nat) {i : Nat} (h : i < a.length) :
    byteAt (a ++ b) i = byteAt a i := by
  rw [byteAt_append]; simp [h]

theorem byteAt_append_right (a b : List Nat) {i : Nat} (h : a.length ≤ i) :
    byteAt (a ++ b) i = byteAt b (i - a.length) := by
  rw [byteAt_append]; simp [Nat.not_lt_of_ge h]

theorem byteAt_take (l : List Nat) (n i : Nat) (h : i < n) :
    byteAt (l.take n) i = byteAt l i := by
  induction l generalizing n i with
  | nil => simp
  | cons x t ih =>
    cases n with
    | zero => omega
    | succ m =>
      cases i with
      | zero => simp [byteAt, readAt]
      | succ j =>
        simpa [byteAt, readAt] using ih m j (by omega)

theorem byteAt_drop (l : List Nat) (n i : Nat) :
    byteAt (l.drop n) i = byteAt l (n + i) := by
  induction l generalizing n with
  | nil => rw [List.drop_nil]; rfl
  | cons x t ih =>
    cases n with
    | zero => simp
    | succ m =>
      simpa [byteAt, readAt, Nat.succ_add] using ih m

theorem byteAt_ext {l1 l2 : List Nat} (hlen : l1.length = l2.length)
    (h : ∀ i, i < l1.length → byteAt l1 i = byteAt l2 i) : l1 = l2 := by
  induction l1 generalizing l2 with
  | nil =>
    cases l2 with
    | nil => rfl
    | cons y t => simp at hlen
  | cons x t ih =>
    cases l2 with
    | nil => simp at hlen
    | cons y u =>
      have hx : x = y := by
        have := h 0 (by simp)
        simpa [byteAt, readAt] using this
      have ht : t = u := by
        refine ih (by simpa using hlen) ?_
        intro i hi
        have := h (i + 1) (by simpa using Nat.succ_lt_succ hi)
        simpa [byteAt, readAt] using this
      rw [hx, ht]

theorem byteAt_mem {l : List Nat} {i : Nat} (h : i < l.length) : byteAt l i ∈ l := by
  induction l generalizing i with
  | nil => simp at h
  | cons x t ih =>
    cases i with
    | zero => simp [byteAt, readAt]
    | succ j =>
      simp only [byteAt, readAt]
      have := ih (i := j) (by simpa using h)
      simp only [byteAt] at this
      exact List.mem_cons_of_mem x this

theorem byteAt_map_range {n : Nat} (g : Nat → Nat) {j : Nat} (h : j < n) :
    byteAt ((List.range n).map g) j = g j := by
  induction n with
  | zero => omega
  | succ m ih =>
    rw [List.range_succ, List.map_append]
    by_cases hj : j < m
    · rw [byteAt_append_left _ (by simpa using hj)]
      exact ih hj
    · have hjm : j = m := by omega
      subst hjm
      rw [byteAt_append_right _ _ (by simp)]
      simp [byteAt, readAt]

theorem take_writeAt {l l2 : List Nat} {i v : Nat} (h : writeAt l i v = some l2) :
    l2.take (i + 1) = l.take i ++ [v] := by
  induction l generalizing i l2 with
  | nil => simp [writeAt] at h
  | cons b t ih =>
    cases i with
    | zero =>
      simp [writeAt] at h
      subst h; rfl
    | succ j =>
      simp only [writeAt] at h
      cases ht : writeAt t j v with
      | none => rw [ht] at h; simp at h
      | some t2 =>
        rw [ht] at h
        simp at h
        subst h
        simp [List.take_succ_cons, ih ht]

theorem writeAt_full {l l2 : List Nat} {i v : Nat} (h : writeAt l i v = some l2)
    (hlen : l.length = i + 1) : l2 = l.take i ++ [v] := by
  have h1 : l2.length = i + 1 := by rw [writeAt_length h, hlen]
  calc l2 = l2.take (i + 1) := by rw [← h1, List.take_length]
    _ = l.take i ++ [v] := take_writeAt h

theorem digitsVal_lt {B : Nat} (hB : 0 < B) :
    ∀ ds : List Nat, (∀ d ∈ ds, d < B) → digitsVal B ds < B ^ ds.length := by
  intro ds
  induction ds with
  | nil => intro _; simpa [digitsVal] using hB
  | cons d t ih =>
    intro h
    have hd : d < B := h d (by simp)
    have ht : digitsVal B t < B ^ t.length := ih (fun x hx => h x (by simp [hx]))
    have : d + B * digitsVal B t < B * B ^ t.length := by
      calc d + B * digitsVal B t < B + B * digitsVal B t := by omega
        _ = B * (digitsVal B t + 1) := by ring
        _ ≤ B * B ^ t.length := Nat.mul_le_mul_left B ht
    simpa [digitsVal, List.length_cons, pow_succ, Nat.mul_comm] using this

theorem digitsVal_digit {B : Nat} (hB : 0 < B) :
    ∀ (ds : List Nat) (k : Nat), (∀ d ∈ ds, d < B) →
      digitsVal B ds / B ^ k % B = byteAt ds k := by
  intro ds
  induction ds with
  | nil =>
    intro k _
    simp only [digitsVal, Nat.zero_div, Nat.zero_mod]
    exact (byteAt_of_ge (by simp)).symm
  | cons d t ih =>
    intro k h
    have hd : d < B := h d (by simp)
    have ht : ∀ x ∈ t, x < B := fun x hx => h x (by simp [hx])
    cases k with
    | zero =>
      have : (d + B * digitsVal B t) % B = d := by
        rw [Nat.add_mul_mod_self_left]
        exact Nat.mod_eq_of_lt hd
      simpa [digitsVal, byteAt, readAt] using this
    | succ m =>
      have hdiv : (d + B * digitsVal B t) / B = digitsVal B t := by
        rw [Nat.add_mul_div_left d _ hB, Nat.div_eq_of_lt hd]
        omega
      have h1 : digitsVal B (d :: t) / B ^ (m + 1) = digitsVal B t / B ^ m := by
        rw [pow_succ, Nat.mul_comm, ← Nat.div_div_eq_div_mul]
        simp [digitsVal, hdiv]
      rw [h1, ih m ht]
      simp [byteAt, readAt]

theorem digitsVal_extract {B : Nat} (hB : 0 < B) :
    ∀ (n V : Nat), digitsVal B ((List.range n).map (fun j => V / B ^ j % B)) = V % B ^ n := by
  intro n
  induction n with
  | zero => intro V; simp [digitsVal, Nat.mod_one]
  | succ m ih =>
    intro V
    have hr : List.range (m + 1) = 0 :: (List.range m).map (· + 1) :=
      List.range_succ_eq_map m
    rw [hr]
    simp only [List.map_cons, List.map_map]
    have h1 : ((List.range m).map ((fun j => V / B ^ j % B) ∘ (· + 1))) =
        (List.range m).map (fun j => (V / B) / B ^ j % B) := by
      refine List.map_congr_left ?_
      intro j _
      simp only [Function.comp]
      rw [pow_succ, Nat.mul_comm, ← Nat.div_div_eq_div_mul]
    rw [h1]
    simp only [digitsVal, pow_zero, Nat.div_one]
    rw [ih (V / B)]
    have hBm : 1 ≤ B ^ m := Nat.one_le_pow _ _ hB
    have key : ∀ a c : Nat, a < B → (B * c + a) % (B * B ^ m) = a + B * (c % B ^ m) := by
      intro a c ha
      have hc : c % B ^ m < B ^ m := Nat.mod_lt _ (Nat.pos_pow_of_pos m hB)
      have hcc : B * (c % B ^ m) + B ≤ B * B ^ m := by
        have h6 : c % B ^ m + 1 ≤ B ^ m := hc
        have := Nat.mul_le_mul_left B h6
        calc B * (c % B ^ m) + B = B * (c % B ^ m + 1) := by ring
          _ ≤ B * B ^ m := Nat.mul_le_mul_left B h6
      have haB : a < B * B ^ m := lt_of_lt_of_le ha (Nat.le_mul_of_pos_right B (Nat.pos_pow_of_pos m hB))
      calc (B * c + a) % (B * B ^ m)
          = ((B * c) % (B * B ^ m) + a % (B * B ^ m)) % (B * B ^ m) := by rw [Nat.add_mod]
        _ = (B * (c % B ^ m) + a) % (B * B ^ m) := by
            rw [Nat.mul_mod_mul_left, Nat.mod_eq_of_lt haB]
        _ = B * (c % B ^ m) + a := Nat.mod_eq_of_lt (by omega)
        _ = a + B * (c % B ^ m) := by ring
    have h2 : V % B ^ (m + 1) = V % B + B * (V / B % B ^ m) := by
      conv_lhs => rw [← Nat.div_add_mod V B]
      rw [pow_succ, Nat.mul_comm (B ^ m) B]
      exact key (V % B) (V / B) (Nat.mod_lt _ hB)
    exact h2.symm

theorem flagsToByte_lt (fl : SbusFlags) : flagsToByte fl < 16 := by
  rcases fl with ⟨a, b, c, d⟩
  cases a <;> cases b <;> cases c <;> cases d <;> decide

theorem flagsToByte_land (fl : SbusFlags) : Nat.land (flagsToByte fl) 240 = 0 := by
  rcases fl with ⟨a, b, c, d⟩
  cases a <;> cases b <;> cases c <;> cases d <;> decide

theorem flagsOfByte_flagsToByte (fl : SbusFlags) : flagsOfByte (flagsToByte fl) = fl := by
  rcases fl with ⟨a, b, c, d⟩
  cases a <;> cases b <;> cases c <;> cases d <;> decide

theorem packFrame_length (cs : List Nat) (fl : SbusFlags) :
    (packFrame cs fl).length = 25 := by
  simp [packFrame]

theorem byteAt_packFrame_zero (cs : List Nat) (fl : SbusFlags) :
    byteAt (packFrame cs fl) 0 = 15 := rfl

theorem byteAt_packFrame_payload (cs : List Nat) (fl : SbusFlags) {j : Nat} (hj : j < 22) :
    byteAt (packFrame cs fl) (j + 1) = channelsVal cs / 256 ^ j % 256 := by
  have h1 : byteAt (packFrame cs fl) (j + 1) =
      byteAt ((List.range 22).map (fun j => channelsVal cs / 256 ^ j % 256) ++
        [flagsToByte fl, SBUS_FOOTER]) j := by
    simp [packFrame, byteAt, readAt]
  rw [h1, byteAt_append_left _ (by simpa using hj), byteAt_map_range _ hj]

theorem byteAt_packFrame_flag (cs : List Nat) (fl : SbusFlags) :
    byteAt (packFrame cs fl) 23 = flagsToByte fl := by
  have h1 : byteAt (packFrame cs fl) 23 =
      byteAt ((List.range 22).map (fun j => channelsVal cs / 256 ^ j % 256) ++
        [flagsToByte fl, SBUS_FOOTER]) 22 := by
    simp [packFrame, byteAt, readAt]
  rw [h1, byteAt_append_right _ _ (by simp)]
  simp [byteAt, readAt]

theorem byteAt_packFrame_footer (cs : List Nat) (fl : SbusFlags) :
    byteAt (packFrame cs fl) 24 = 0 := by
  have h1 : byteAt (packFrame cs fl) 24 =
      byteAt ((List.range 22).map (fun j => channelsVal cs / 256 ^ j % 256) ++
        [flagsToByte fl, SBUS_FOOTER]) 23 := by
    simp [packFrame, byteAt, readAt]
  rw [h1, byteAt_append_right _ _ (by simp)]
  simp [byteAt, readAt, SBUS_FOOTER]

theorem channelsVal_lt {cs : List Nat} (h : cs.length = 16) :
    channelsVal cs < 2 ^ 176 := by
  have h1 : ∀ d ∈ cs.map (· % 2048), d < 2048 := by
    intro d hd
    obtain ⟨c, _, hc⟩ := List.mem_map.mp hd
    omega
  have h2 := digitsVal_lt (by norm_num : (0:Nat) < 2048) (cs.map (· % 2048)) h1
  have h3 : ((2048 : Nat)) ^ (cs.map (· % 2048)).length = 2 ^ 176 := by
    rw [List.length_map, h]
    norm_num
  rw [← h3]
  exact h2

theorem payloadVal_packFrame {cs : List Nat} (fl : SbusFlags) (h : cs.length = 16) :
    payloadVal (packFrame cs fl) = channelsVal cs := by
  have h1 : (List.range 22).map (fun j => byteAt (packFrame cs fl) (j + 1)) =
      (List.range 22).map (fun j => channelsVal cs / 256 ^ j % 256) := by
    refine List.map_congr_left ?_
    intro j hj
    exact byteAt_packFrame_payload cs fl (List.mem_range.mp hj)
  rw [payloadVal, h1, digitsVal_extract (by norm_num)]
  refine Nat.mod_eq_of_lt ?_
  have := channelsVal_lt h
  have h2 : (256 : Nat) ^ 22 = 2 ^ 176 := by norm_num
  omega

theorem byteAt_map_mod (cs : List Nat) (i : Nat) (hi : i < cs.length) :
    byteAt (cs.map (· % 2048)) i = byteAt cs i % 2048 := by
  induction cs generalizing i with
  | nil => simp at hi
  | cons c t ih =>
    cases i with
    | zero => simp [byteAt, readAt]
    | succ j => simpa [byteAt, readAt] using ih j (by simpa using hi)

theorem channel_extract {cs : List Nat} (h : cs.length = 16)
    (hlt : ∀ c ∈ cs, c ≤ 2047) {i : Nat} (hi : i < 16) :
    channelsVal cs / 2 ^ (11 * i) % 2048 = byteAt cs i := by
  have h1 : ∀ d ∈ cs.map (· % 2048), d < 2048 := by
    intro d hd
    obtain ⟨c, _, hc⟩ := List.mem_map.mp hd
    omega
  have h2 : (2 : Nat) ^ (11 * i) = 2048 ^ i := by
    rw [pow_mul]
    norm_num
  rw [h2, channelsVal, digitsVal_digit (by norm_num) _ i h1]
  rw [byteAt_map_mod cs i (by omega)]
  have h4 : byteAt cs i ≤ 2047 := hlt _ (byteAt_mem (by omega))
  omega

theorem map_range_byteAt {l : List Nat} {n : Nat} (h : l.length = n) :
    (List.range n).map (fun i => byteAt l i) = l := by
  refine byteAt_ext (by simp [h]) ?_
  intro i hi
  have hi2 : i < n := by simpa [h] using hi
  rw [byteAt_map_range _ hi2]

theorem satAdd_le (a b : Nat) : satAdd a b ≤ U32_MAX := by
  simp [satAdd]

theorem satAdd_comp (a b c : Nat) : satAdd (satAdd a b) c = satAdd a (b + c) := by
  simp only [satAdd, U32_MAX]
  omega

theorem min_le_satAdd (a b : Nat) : min a U32_MAX ≤ satAdd a b := by
  simp only [satAdd, U32_MAX]
  omega

theorem findHdrGo_char (buf : List Nat) :
    ∀ (fuel i : Nat), i + fuel ≤ buf.length →
      ∃ r, findHdrGo buf i fuel = some r ∧
        ((r = none → ∀ j, i ≤ j → j < i + fuel → byteAt buf j ≠ 15) ∧
         (∀ k, r = some k → i ≤ k ∧ k < i + fuel ∧ byteAt buf k = 15 ∧
           ∀ j, i ≤ j → j < k → byteAt buf j ≠ 15)) := by
  intro fuel
  induction fuel with
  | zero =>
    intro i _
    refine ⟨none, rfl, ?_, ?_⟩
    · intro _ j h1 h2
      omega
    · intro k hk
      simp at hk
  | succ m ih =>
    intro i hle
    have hi : i < buf.length := by omega
    obtain ⟨v, hv⟩ := readAt_isSome hi
    have hvb : v = byteAt buf i := by simp [byteAt, hv]
    by_cases hhd : v = 15
    · refine ⟨some i, ?_, ?_, ?_⟩
      · simp [findHdrGo, hv, hhd, SBUS_HEADER]
      · intro h
        simp at h
      · intro k hk
        simp at hk
        subst hk
        exact ⟨le_refl i, by omega, by rw [← hvb]; exact hhd, fun j h1 h2 => by omega⟩
    · obtain ⟨r, hr, hnone, hsome⟩ := ih (i + 1) (by omega)
      refine ⟨r, ?_, ?_, ?_⟩
      · simp [findHdrGo, hv, SBUS_HEADER, hhd]
        exact hr
      · intro h j h1 h2
        rcases Nat.eq_or_lt_of_le h1 with h3 | h3
        · rw [← h3, ← hvb]
          exact hhd
        · exact hnone h j h3 (by omega)
      · intro k hk
        obtain ⟨a1, a2, a3, a4⟩ := hsome k hk
        refine ⟨by omega, by omega, a3, ?_⟩
        intro j h1 h2
        rcases Nat.eq_or_lt_of_le h1 with h3 | h3
        · rw [← h3, ← hvb]
          exact hhd
        · exact a4 j h3 h2


theorem shiftGo_char :
    ∀ (fuel : Nat) (buf : List Nat) (i j : Nat), 1 ≤ i → i + j + fuel ≤ buf.length →
      ∃ buf2, shiftGo buf i j fuel = some buf2 ∧ buf2.length = buf.length ∧
        (∀ t, j ≤ t → t < j + fuel → byteAt buf2 t = byteAt buf (i + t)) ∧
        (∀ t, t < j ∨ j + fuel ≤ t → byteAt buf2 t = byteAt buf t) := by
  intro fuel
  induction fuel with
  | zero =>
    intro buf i j _ _
    refine ⟨buf, rfl, rfl, ?_, ?_⟩
    · intro t h1 h2
      exact absurd h2 (by omega)
    · intro t _
      rfl
  | succ m ih =>
    intro buf i j hi hle
    have hij : i + j < buf.length := by omega
    obtain ⟨v, hv⟩ := readAt_isSome hij
    have hvb : v = byteAt buf (i + j) := by simp [byteAt, hv]
    obtain ⟨buf1, hw⟩ := writeAt_isSome v (by omega : j < buf.length)
    have hlen1 : buf1.length = buf.length := writeAt_length hw
    obtain ⟨buf2, hs, hlen2, hin, hout⟩ := ih buf1 i (j + 1) hi (by omega)
    refine ⟨buf2, ?_, by omega, ?_, ?_⟩
    · simp [shiftGo, hv, hw, hs]
    · intro t h1 h2
      rcases Nat.eq_or_lt_of_le h1 with h3 | h3
      · subst h3
        rw [hout j (Or.inl (by omega)), byteAt_writeAt_eq hw, hvb]
      · rw [hin t (by omega) (by omega), byteAt_writeAt_ne hw (by omega)]
    · intro t ht
      have h4 : t < j + 1 ∨ j + 1 + m ≤ t := by omega
      rw [hout t h4, byteAt_writeAt_ne hw (by omega)]

theorem resync_char {s : StreamingParser} (hlen : s.buffer.length = 25)
    (hpos : s.pos = 25) :
    ∃ s2, resync s = some s2 ∧ s2.buffer.length = 25 ∧ s2.pos ≤ 24 ∧
      s2.stats.frames_decoded = s.stats.frames_decoded ∧
      s2.stats.sync_losses = satAdd s.stats.sync_losses 1 ∧
      ((∃ k, 1 ≤ k ∧ k ≤ 24 ∧ byteAt s.buffer k = 15 ∧
          (∀ j, 1 ≤ j → j < k → byteAt s.buffer j ≠ 15) ∧
          s2.pos = 25 - k ∧
          s2.stats.bytes_discarded = satAdd s.stats.bytes_discarded k ∧
          (∀ t, t < 25 - k → byteAt s2.buffer t = byteAt s.buffer (k + t))) ∨
       ((∀ j, 1 ≤ j → j ≤ 24 → byteAt s.buffer j ≠ 15) ∧ s2.pos = 0 ∧
          s2.buffer = s.buffer ∧
          s2.stats.bytes_discarded = satAdd s.stats.bytes_discarded 25)) := by
  obtain ⟨r, hr, hnone, hsome⟩ := findHdrGo_char s.buffer (s.pos - 1) 1 (by omega)
  cases r with
  | none =>
    refine ⟨{ s with
        pos := 0,
        stats := { s.stats with
          sync_losses := satAdd s.stats.sync_losses 1,
          bytes_discarded := satAdd s.stats.bytes_discarded s.pos } }, ?_, ?_⟩
    · simp only [resync, hr]
    refine ⟨by simpa using hlen, by simp, by simp, by simp, ?_⟩
    right
    refine ⟨?_, by simp, by simp, ?_⟩
    · intro j h1 h2
      exact hnone rfl j h1 (by omega)
    · simp [hpos]
  | some k =>
    obtain ⟨a1, a2, a3, a4⟩ := hsome k rfl
    obtain ⟨buf2, hs, hlen2, hin, _⟩ :=
      shiftGo_char (s.pos - k) s.buffer k 0 (by omega) (by omega)
    refine ⟨{ buffer := buf2, pos := s.pos - k,
              stats := { frames_decoded := s.stats.frames_decoded,
                         sync_losses := satAdd s.stats.sync_losses 1,
                         bytes_discarded := satAdd s.stats.bytes_discarded k } }, ?_, ?_⟩
    · simp only [resync, hr, hs]
    refine ⟨by simpa using hlen2.trans hlen, by simp; omega, by simp, by simp, ?_⟩
    left
    refine ⟨k, by omega, by omega, a3, ?_, by simp; omega, by simp, ?_⟩
    · intro j h1 h2
      exact a4 j h1 h2
    · intro t ht
      have := hin t (by omega) (by omega)
      simpa [Nat.add_comm] using this

theorem pushByte_seek_miss {s : StreamingParser} {b : Nat} (h : s.pos = 0) (hb : b ≠ 15) :
    pushByte s b = some ({ s with stats := { s.stats with
      bytes_discarded := satAdd s.stats.bytes_discarded 1 } }, .ok none) := by
  simp [pushByte, h, SBUS_HEADER, hb]

theorem pushByte_seek_hit {s : StreamingParser} {buf2 : List Nat} (h : s.pos = 0)
    (hw : writeAt s.buffer 0 15 = some buf2) :
    pushByte s 15 = some ({ s with buffer := buf2, pos := 1 }, .ok none) := by
  simp [pushByte, h, SBUS_HEADER, hw]

theorem pushByte_acc {s : StreamingParser} {b : Nat} {buf2 : List Nat}
    (h0 : 0 < s.pos) (hne : s.pos + 1 ≠ 25)
    (hw : writeAt s.buffer s.pos b = some buf2) :
    pushByte s b = some ({ s with buffer := buf2, pos := s.pos + 1 }, .ok none) := by
  simp [pushByte, Nat.pos_iff_ne_zero.mp h0, hw, SBUS_FRAME_LENGTH, hne]

theorem pushByte_complete {s : StreamingParser} {b : Nat} {buf2 : List Nat}
    (h24 : s.pos = 24) (hw : writeAt s.buffer s.pos b = some buf2) :
    pushByte s b =
      if b = 0 then
        match SbusPacket.fromArray buf2 with
        | .ok p =>
          some ({ buffer := buf2, pos := 0,
                  stats := { s.stats with
                    frames_decoded := satAdd s.stats.frames_decoded 1 } },
                .ok (some p))
        | .error e =>
          match resync { buffer := buf2, pos := 25, stats := s.stats } with
          | none => none
          | some s2 => some (s2, .error e)
      else
        match resync { buffer := buf2, pos := 25, stats := s.stats } with
        | none => none
        | some s2 => some (s2, .ok none) := by
  have h0 : s.pos ≠ 0 := by omega
  have hw24 : writeAt s.buffer 24 b = some buf2 := by rwa [h24] at hw
  have hread : readAt buf2 24 = some b := readAt_writeAt_eq hw24
  simp [pushByte, h0, h24, hw24, hread, SBUS_FOOTER, SBUS_FRAME_LENGTH]

/-- One step of push_byte from a state with an in-range cursor: the call does
not panic, and its effect falls into one of the five branches of the source. -/
theorem pushByte_step {s : StreamingParser} (hlen : s.buffer.length = 25)
    (hpos : s.pos ≤ 24) (b : Nat) :
    ∃ s2 r, pushByte s b = some (s2, r) ∧ s2.buffer.length = 25 ∧ s2.pos ≤ 24 ∧
      ((s.pos = 0 ∧ b ≠ 15 ∧ r = .ok none ∧ s2.buffer = s.buffer ∧ s2.pos = 0 ∧
          s2.stats.frames_decoded = s.stats.frames_decoded ∧
          s2.stats.sync_losses = s.stats.sync_losses ∧
          s2.stats.bytes_discarded = satAdd s.stats.bytes_discarded 1) ∨
       (s.pos = 0 ∧ b = 15 ∧ r = .ok none ∧ s2.pos = 1 ∧ byteAt s2.buffer 0 = 15 ∧
          s2.stats = s.stats) ∨
       (0 < s.pos ∧ s.pos < 24 ∧ r = .ok none ∧ s2.pos = s.pos + 1 ∧
          byteAt s2.buffer 0 = byteAt s.buffer 0 ∧ s2.stats = s.stats) ∨
       (s.pos = 24 ∧ b = 0 ∧ (∃ p, r = .ok (some p)) ∧ s2.pos = 0 ∧
          s2.stats.frames_decoded = satAdd s.stats.frames_decoded 1 ∧
          s2.stats.sync_losses = s.stats.sync_losses ∧
          s2.stats.bytes_discarded = s.stats.bytes_discarded) ∨
       (s.pos = 24 ∧ ((∃ e, r = .error e) ∨ r = .ok none) ∧
          (0 < s2.pos → byteAt s2.buffer 0 = 15) ∧
          s2.stats.frames_decoded = s.stats.frames_decoded ∧
          s2.stats.sync_losses = satAdd s.stats.sync_losses 1 ∧
          min s.stats.bytes_discarded U32_MAX ≤ s2.stats.bytes_discarded)) := by
  by_cases h0 : s.pos = 0
  · by_cases hb : b = 15
    · obtain ⟨buf2, hw⟩ := writeAt_isSome 15 (show 0 < s.buffer.length by omega)
      subst hb
      refine ⟨_, _, pushByte_seek_hit h0 hw, ?_, ?_, ?_⟩
      · simpa using (writeAt_length hw).trans hlen
      · simp
      · right; left
        exact ⟨h0, rfl, rfl, rfl, byteAt_writeAt_eq hw, rfl⟩
    · refine ⟨_, _, pushByte_seek_miss h0 hb, by simpa using hlen, by simpa using hpos, ?_⟩
      left
      exact ⟨h0, hb, rfl, rfl, by simpa using h0, rfl, rfl, rfl⟩
  · obtain ⟨buf2, hw⟩ := writeAt_isSome b (show s.pos < s.buffer.length by omega)
    have hlen2 : buf2.length = 25 := (writeAt_length hw).trans hlen
    by_cases h24 : s.pos = 24
    · rw [pushByte_complete h24 hw]
      by_cases hb0 : b = 0
      · rw [if_pos hb0]
        cases hfa : SbusPacket.fromArray buf2 with
        | ok p =>
          refine ⟨_, _, rfl, by simpa using hlen2, by simp, ?_⟩
          right; right; right; left
          exact ⟨h24, hb0, ⟨p, rfl⟩, rfl, rfl, rfl, rfl⟩
        | error e =>
          obtain ⟨s2, hrs, b1, b2, b3, b4, bdisj⟩ :=
            resync_char (s := { buffer := buf2, pos := 25, stats := s.stats })
              (by simpa using hlen2) (by simp)
          rw [hrs]
          refine ⟨s2, _, rfl, b1, b2, ?_⟩
          right; right; right; right
          refine ⟨h24, Or.inl ⟨e, rfl⟩, ?_, by simpa using b3, by simpa using b4, ?_⟩
          · intro hp
            rcases bdisj with ⟨k, _, hk24, hk15, _, hpk, _, hbt⟩ | ⟨_, hp0, _, _⟩
            · have := hbt 0 (by omega)
              simpa using this.trans hk15
            · omega
          · rcases bdisj with ⟨k, _, _, _, _, _, hbd, _⟩ | ⟨_, _, _, hbd⟩ <;>
              simp only at hbd <;> rw [hbd] <;>
              exact min_le_satAdd _ _
      · rw [if_neg hb0]
        obtain ⟨s2, hrs, b1, b2, b3, b4, bdisj⟩ :=
          resync_char (s := { buffer := buf2, pos := 25, stats := s.stats })
            (by simpa using hlen2) (by simp)
        rw [hrs]
        refine ⟨s2, _, rfl, b1, b2, ?_⟩
        right; right; right; right
        refine ⟨h24, Or.inr rfl, ?_, by simpa using b3, by simpa using b4, ?_⟩
        · intro hp
          rcases bdisj with ⟨k, _, hk24, hk15, _, hpk, _, hbt⟩ | ⟨_, hp0, _, _⟩
          · have := hbt 0 (by omega)
            simpa using this.trans hk15
          · omega
        · rcases bdisj with ⟨k, _, _, _, _, _, hbd, _⟩ | ⟨_, _, _, hbd⟩ <;>
            simp only at hbd <;> rw [hbd] <;>
            exact min_le_satAdd _ _
    · rw [pushByte_acc (by omega) (by omega) hw]
      refine ⟨_, _, rfl, by simpa using hlen2, by simp; omega, ?_⟩
      right; right; left
      refine ⟨by omega, by omega, rfl, rfl, ?_, rfl⟩
      simpa using byteAt_writeAt_ne hw (by omega)

theorem pushByte_wf {s s2 : StreamingParser} {b : Nat}
    {r : Except SbusError (Option SbusPacket)} (hs : Wf s)
    (h : pushByte s b = some (s2, r)) : Wf s2 := by
  obtain ⟨hlen, hpos, hhd⟩ := hs
  obtain ⟨s3, r3, heq, c1, c2, cdisj⟩ := pushByte_step hlen hpos b
  rw [h] at heq
  obtain ⟨h1, h2⟩ : s2 = s3 ∧ r = r3 := by
    constructor <;> [exact congrArg Prod.fst (Option.some.inj heq);
      exact congrArg Prod.snd (Option.some.inj heq)]
  subst h1
  subst h2
  refine ⟨c1, c2, ?_⟩
  rcases cdisj with ⟨_, _, _, hbuf, hp, _⟩ | ⟨_, _, _, hp, hhd2, _⟩ |
      ⟨hp0, _, _, hp, hhd2, _⟩ | ⟨_, _, _, hp, _⟩ | ⟨_, _, hhd2, _⟩
  · intro h
    omega
  · intro _
    exact hhd2
  · intro _
    rw [hhd2]
    exact hhd hp0
  · intro h
    omega
  · exact hhd2

theorem feedAll_cons_none {s : StreamingParser} {x : Nat} (h : pushByte s x = none)
    (t : List Nat) : feedAll s (x :: t) = none := by
  simp [feedAll, h]

theorem feedAll_cons_skip {s s2 : StreamingParser} {x : Nat}
    (h : pushByte s x = some (s2, .ok none)) (t : List Nat) :
    feedAll s (x :: t) = feedAll s2 t := by
  simp only [feedAll, h]
  cases hf : feedAll s2 t with
  | none => rfl
  | some fr => rfl

theorem feedAll_cons_ok {s s2 : StreamingParser} {x : Nat} {p : SbusPacket}
    (h : pushByte s x = some (s2, .ok (some p)) ) (t : List Nat) :
    feedAll s (x :: t) = (feedAll s2 t).map (fun pr => (pr.1, .ok p :: pr.2)) := by
  simp only [feedAll, h]
  cases hf : feedAll s2 t with
  | none => rfl
  | some fr => rfl

theorem feedAll_cons_err {s s2 : StreamingParser} {x : Nat} {e : SbusError}
    (h : pushByte s x = some (s2, .error e)) (t : List Nat) :
    feedAll s (x :: t) = (feedAll s2 t).map (fun pr => (pr.1, .error e :: pr.2)) := by
  simp only [feedAll, h]
  cases hf : feedAll s2 t with
  | none => rfl
  | some fr => rfl

theorem feedAll_append (a : List Nat) :
    ∀ (b : List Nat) (s s1 s2 : StreamingParser)
      (o1 o2 : List (Except SbusError SbusPacket)),
      feedAll s a = some (s1, o1) → feedAll s1 b = some (s2, o2) →
      feedAll s (a ++ b) = some (s2, o1 ++ o2) := by
  induction a with
  | nil =>
    intro b s s1 s2 o1 o2 h1 h2
    simp only [feedAll, Option.some.injEq, Prod.mk.injEq] at h1
    obtain ⟨hs, ho⟩ := h1
    subst hs; subst ho
    simpa using h2
  | cons x t ih =>
    intro b s s1 s2 o1 o2 h1 h2
    cases hp : pushByte s x with
    | none =>
      rw [feedAll_cons_none hp] at h1
      simp at h1
    | some pr =>
      obtain ⟨sp, r⟩ := pr
      cases r with
      | error e =>
        rw [feedAll_cons_err hp] at h1
        cases hf : feedAll sp t with
        | none =>
          rw [hf] at h1
          exact absurd (h1 :
            (none : Option (StreamingParser × List (Except SbusError SbusPacket))) =
              some (s1, o1)) (by simp)
        | some fr =>
          obtain ⟨s3, out⟩ := fr
          rw [hf] at h1
          have h3 : some ((s3 : StreamingParser), Except.error e :: out) = some (s1, o1) := h1
          obtain ⟨hs, ho⟩ : s3 = s1 ∧ Except.error e :: out = o1 :=
            ⟨congrArg Prod.fst (Option.some.inj h3), congrArg Prod.snd (Option.some.inj h3)⟩
          subst hs
          rw [show x :: t ++ b = x :: (t ++ b) from rfl,
            feedAll_cons_err hp, ih b sp s3 s2 out o2 hf h2]
          simp [← ho]
      | ok op =>
        cases op with
        | none =>
          rw [feedAll_cons_skip hp] at h1
          rw [show x :: t ++ b = x :: (t ++ b) from rfl, feedAll_cons_skip hp]
          exact ih b sp s1 s2 o1 o2 h1 h2
        | some p =>
          rw [feedAll_cons_ok hp] at h1
          cases hf : feedAll sp t with
          | none =>
            rw [hf] at h1
            exact absurd (h1 :
              (none : Option (StreamingParser × List (Except SbusError SbusPacket))) =
                some (s1, o1)) (by simp)
          | some fr =>
            obtain ⟨s3, out⟩ := fr
            rw [hf] at h1
            have h3 : some ((s3 : StreamingParser), Except.ok p :: out) = some (s1, o1) := h1
            obtain ⟨hs, ho⟩ : s3 = s1 ∧ Except.ok p :: out = o1 :=
              ⟨congrArg Prod.fst (Option.some.inj h3), congrArg Prod.snd (Option.some.inj h3)⟩
            subst hs
            rw [show x :: t ++ b = x :: (t ++ b) from rfl,
              feedAll_cons_ok hp, ih b sp s3 s2 out o2 hf h2]
            simp [← ho]

theorem okCount_append (o1 o2 : List (Except SbusError SbusPacket)) :
    okCount (o1 ++ o2) = okCount o1 + okCount o2 := by
  induction o1 with
  | nil => simp [okCount]
  | cons x t ih =>
    cases x with
    | ok p => simp [okCount, ih]; omega
    | error e => simp [okCount, ih]

theorem feedAll_wf {data : List Nat} :
    ∀ {s : StreamingParser}, Wf s →
      ∃ s2 out, feedAll s data = some (s2, out) ∧ Wf s2 := by
  induction data with
  | nil =>
    intro s hs
    exact ⟨s, [], rfl, hs⟩
  | cons x t ih =>
    intro s hs
    obtain ⟨s2, r, heq, c1, c2, _⟩ := pushByte_step hs.1 hs.2.1 x
    have hw2 : Wf s2 := pushByte_wf hs heq
    obtain ⟨s3, out, hf, hw3⟩ := ih hw2
    cases r with
    | error e => exact ⟨s3, .error e :: out, by simp [feedAll, heq, hf], hw3⟩
    | ok op =>
      cases op with
      | none => exact ⟨s3, out, by simp [feedAll, heq, hf], hw3⟩
      | some p => exact ⟨s3, .ok p :: out, by simp [feedAll, heq, hf], hw3⟩

theorem iterNext_none {s : StreamingParser} {x : Nat} (h : pushByte s x = none)
    (t : List Nat) : iterNext s (x :: t) = none := by
  simp [iterNext, h]

theorem iterNext_skip {s s2 : StreamingParser} {x : Nat}
    (h : pushByte s x = some (s2, .ok none)) (t : List Nat) :
    iterNext s (x :: t) = iterNext s2 t := by
  simp [iterNext, h]

theorem iterNext_yield_ok {s s2 : StreamingParser} {x : Nat} {p : SbusPacket}
    (h : pushByte s x = some (s2, .ok (some p))) (t : List Nat) :
    iterNext s (x :: t) = some (some (.ok p), s2, t) := by
  simp [iterNext, h]

theorem iterNext_yield_err {s s2 : StreamingParser} {x : Nat} {e : SbusError}
    (h : pushByte s x = some (s2, .error e)) (t : List Nat) :
    iterNext s (x :: t) = some (some (.error e), s2, t) := by
  simp [iterNext, h]

theorem drainFuel_eq_feedAll :
    ∀ (n : Nat) (data : List Nat) (s : StreamingParser), data.length < n →
      drainFuel n s data = feedAll s data := by
  intro n
  induction n with
  | zero =>
    intro data s h
    omega
  | succ m ih =>
    intro data s h
    induction data generalizing s with
    | nil => simp [drainFuel, iterNext, feedAll]
    | cons x t iht =>
      cases hp : pushByte s x with
      | none =>
        rw [feedAll_cons_none hp]
        simp [drainFuel, iterNext_none hp]
      | some pr =>
        obtain ⟨s2, r⟩ := pr
        cases r with
        | error e =>
          have h2 : drainFuel (m + 1) s (x :: t) =
              match drainFuel m s2 t with
              | none => none
              | some (s3, out) => some (s3, Except.error e :: out) := by
            simp only [drainFuel, iterNext_yield_err hp]
          rw [h2, ih t s2 (by simp at h; omega), feedAll_cons_err hp]
          cases hf : feedAll s2 t with
          | none => rfl
          | some fr => rfl
        | ok op =>
          cases op with
          | some p =>
            have h2 : drainFuel (m + 1) s (x :: t) =
                match drainFuel m s2 t with
                | none => none
                | some (s3, out) => some (s3, Except.ok p :: out) := by
              simp only [drainFuel, iterNext_yield_ok hp]
            rw [h2, ih t s2 (by simp at h; omega), feedAll_cons_ok hp]
            cases hf : feedAll s2 t with
            | none => rfl
            | some fr => rfl
          | none =>
            have h2 : drainFuel (m + 1) s (x :: t) = drainFuel (m + 1) s2 t := by
              simp only [drainFuel, iterNext_skip hp]
            rw [h2, iht s2 (by simp at h ⊢; omega), feedAll_cons_skip hp]

/-- Feeding the bytes that complete the current accumulation: the parser reaches
frame length exactly at the last byte and resolves the window w (buffered prefix
followed by the fed bytes) according to the footer check and the codec verdict. -/
theorem fill (l : List Nat) :
    ∀ (s : StreamingParser) (w : List Nat), s.buffer.length = 25 → 0 < s.pos →
      s.pos ≤ 24 → s.pos + l.length = 25 → w = s.buffer.take s.pos ++ l →
      (∀ p, byteAt w 24 = 0 → SbusPacket.fromArray w = .ok p →
         feedAll s l = some (⟨w, 0,
           { s.stats with frames_decoded := satAdd s.stats.frames_decoded 1 }⟩,
           [.ok p])) ∧
      (∀ e, byteAt w 24 = 0 → SbusPacket.fromArray w = .error e →
         ∃ sr, resync ⟨w, 25, s.stats⟩ = some sr ∧ feedAll s l = some (sr, [.error e])) ∧
      (byteAt w 24 ≠ 0 →
         ∃ sr, resync ⟨w, 25, s.stats⟩ = some sr ∧ feedAll s l = some (sr, [])) := by
  induction l with
  | nil =>
    intro s w hlen hp0 hp24 hsum hw
    simp at hsum
    omega
  | cons b rest ih =>
    intro s w hlen hp0 hp24 hsum hw
    cases rest with
    | nil =>
      have h24 : s.pos = 24 := by simpa using hsum
      obtain ⟨buf2, hwr⟩ := writeAt_isSome b (show s.pos < s.buffer.length by omega)
      have hbuf2 : buf2 = w := by
        rw [writeAt_full hwr (by omega), hw, h24]
      have hwlen : w.length = 25 := by
        rw [hw]
        have : (s.buffer.take s.pos).length = s.pos := by
          simp [List.length_take]
          omega
        simp [this]
        omega
      have hb24 : byteAt w 24 = b := by
        rw [hw]
        have hlt : (s.buffer.take s.pos).length = 24 := by
          simp [List.length_take]
          omega
        rw [byteAt_append_right _ _ (by rw [hlt])]
        simp [hlt, byteAt, readAt]
      have hpc := pushByte_complete h24 hwr
      rw [hbuf2] at hpc
      refine ⟨?_, ?_, ?_⟩
      · intro p hfo hfa
        have hb0 : b = 0 := by rw [← hb24, hfo]
        rw [if_pos hb0, hfa] at hpc
        rw [feedAll_cons_ok hpc]
        simp only [feedAll]
        simp [h24]
      · intro e hfo hfa
        have hb0 : b = 0 := by rw [← hb24, hfo]
        rw [if_pos hb0, hfa] at hpc
        obtain ⟨sr, hrs, _⟩ := resync_char (s := ⟨w, 25, s.stats⟩) (by simpa using hwlen)
          (by simp)
        rw [hrs] at hpc
        refine ⟨sr, hrs, ?_⟩
        rw [feedAll_cons_err hpc]
        simp only [feedAll]
        simp
      · intro hfo
        have hb0 : b ≠ 0 := by rwa [hb24] at hfo
        rw [if_neg hb0] at hpc
        obtain ⟨sr, hrs, _⟩ := resync_char (s := ⟨w, 25, s.stats⟩) (by simpa using hwlen)
          (by simp)
        rw [hrs] at hpc
        refine ⟨sr, hrs, ?_⟩
        rw [feedAll_cons_skip hpc]
        simp only [feedAll]
    | cons b2 rest2 =>
      have hplt : s.pos < 24 := by
        simp at hsum
        omega
      obtain ⟨buf2, hwr⟩ := writeAt_isSome b (show s.pos < s.buffer.length by omega)
      have hpa := pushByte_acc hp0 (by omega) hwr
      have hs2len : buf2.length = 25 := (writeAt_length hwr).trans hlen
      have hw2 : w = buf2.take (s.pos + 1) ++ (b2 :: rest2) := by
        rw [take_writeAt hwr, hw]
        simp
      have := ih { s with buffer := buf2, pos := s.pos + 1 } w
        (by simpa using hs2len) (by simp) (by simp; omega) (by simp at hsum ⊢; omega)
        (by simpa using hw2)
      rw [feedAll_cons_skip hpa]
      simpa using this

theorem fromArray_valid {F : List Nat} (hF : ValidFrame F) :
    ∃ p, SbusPacket.fromArray F = .ok p := by
  obtain ⟨_, h0, h24, h23⟩ := hF
  refine ⟨⟨(List.range 16).map (fun i => payloadVal F / 2 ^ (11 * i) % 2048),
    flagsOfByte (byteAt F 23)⟩, ?_⟩
  simp [SbusPacket.fromArray, h0, h24, h23, SBUS_HEADER, SBUS_FOOTER]

/-- Retention argument: once a header byte of a valid frame F has entered the
buffer behind some junk prefix, every failed window resynchronizes to a shorter
junk prefix while keeping the already-buffered part of F, so a decoded packet is
produced no later than the last byte of F. -/
theorem junked (F : List Nat) (hF : ValidFrame F) :
    ∀ (n : Nat) (junk Fdone Frem : List Nat) (s : StreamingParser),
      junk.length = n →
      s.buffer.length = 25 → s.pos = junk.length + Fdone.length → s.pos ≤ 24 →
      0 < Fdone.length → s.buffer.take s.pos = junk ++ Fdone →
      F = Fdone ++ Frem →
      ∃ c s2 out, c ≤ Frem.length ∧ feedAll s (Frem.take c) = some (s2, out) ∧
        1 ≤ okCount out ∧ s2.buffer.length = 25 ∧ s2.pos ≤ 24 := by
  intro n
  induction n using Nat.strong_induction_on with
  | _ n ih =>
    intro junk Fdone Frem s hjn hlen hpos hp24 hFd hbuf hsplit
    have hFlen : F.length = 25 := hF.1
    have hfl : Fdone.length + Frem.length = 25 := by
      have := congrArg List.length hsplit
      simpa using this.symm.trans hFlen
    have hp0 : 0 < s.pos := by omega
    have hF0 : byteAt F 0 = 15 := hF.2.1
    have hFd0 : byteAt Fdone 0 = 15 := by
      rw [hsplit] at hF0
      rwa [byteAt_append_left _ (by omega)] at hF0
    set Fr1 := Frem.take (25 - s.pos) with hFr1
    set Fr2 := Frem.drop (25 - s.pos) with hFr2
    have hFr1len : Fr1.length = 25 - s.pos := by
      rw [hFr1]
      simp [List.length_take]
      omega
    have hFr12 : Fr1 ++ Fr2 = Frem := List.take_append_drop _ _
    have hwdef : s.buffer.take s.pos ++ Fr1 = junk ++ (Fdone ++ Fr1) := by
      rw [hbuf, List.append_assoc]
    obtain ⟨fS, fE, fF⟩ := fill Fr1 s (junk ++ (Fdone ++ Fr1)) hlen hp0 hp24
      (by omega) hwdef.symm
    set w := junk ++ (Fdone ++ Fr1) with hwd
    have hwlen : w.length = 25 := by
      have := congrArg List.length hbuf
      simp at this
      simp [hwd]
      omega
    by_cases hok : byteAt w 24 = 0 ∧ ∃ p, SbusPacket.fromArray w = .ok p
    · obtain ⟨hfo, p, hfa⟩ := hok
      refine ⟨Fr1.length, ⟨w, 0,
        { s.stats with frames_decoded := satAdd s.stats.frames_decoded 1 }⟩,
        [.ok p], by omega, ?_, ?_, ?_, ?_⟩
      · rw [show Frem.take Fr1.length = Fr1 by rw [hFr1len, ← hFr1]]
        exact fS p hfo hfa
      · simp [okCount]
      · simpa using hwlen
      · simp
    · have hjne : junk ≠ [] := by
        intro hj
        subst hj
        have hfr : Fr1 = Frem := by
          rw [hFr1]
          refine List.take_of_length_le ?_
          simp at hpos
          omega
        have hwF : w = F := by
          rw [hwd, hfr]
          simpa using hsplit.symm
        obtain ⟨p, hfa⟩ := fromArray_valid hF
        exact hok ⟨by rw [hwF]; exact hF.2.2.1, p, by rw [hwF]; exact hfa⟩
      have hjlen1 : 1 ≤ junk.length := by
        cases junk with
        | nil => exact absurd rfl hjne
        | cons a t => simp
      have hjlen23 : junk.length ≤ 23 := by omega
      have hwj : byteAt w junk.length = 15 := by
        rw [hwd, byteAt_append_right _ _ (le_refl _), Nat.sub_self]
        rwa [byteAt_append_left _ (by omega)]
      -- the window fails and resync is invoked
      have hfail : ∃ sr outw, resync ⟨w, 25, s.stats⟩ = some sr ∧
          feedAll s Fr1 = some (sr, outw) ∧ okCount outw = 0 := by
        by_cases hfo : byteAt w 24 = 0
        · cases hfa : SbusPacket.fromArray w with
          | ok p => exact absurd ⟨hfo, p, hfa⟩ hok
          | error e =>
            obtain ⟨sr, hrs, hfd⟩ := fE e hfo hfa
            exact ⟨sr, [.error e], hrs, hfd, rfl⟩
        · obtain ⟨sr, hrs, hfd⟩ := fF hfo
          exact ⟨sr, [], hrs, hfd, rfl⟩
      obtain ⟨sr, outw, hrs, hfeedw, hokw⟩ := hfail
      obtain ⟨sr2, hrs2, hsrlen, hsrpos, _, _, hdisj⟩ :=
        resync_char (s := ⟨w, 25, s.stats⟩) (by simpa using hwlen) (by simp)
      rw [hrs] at hrs2
      have hsr : sr2 = sr := (Option.some.inj hrs2).symm
      rw [hsr] at hsrlen hsrpos hdisj
      rcases hdisj with ⟨k, hk1, hk24, hk15, hkmin, hkpos, _, hkshift⟩ |
        ⟨hnone, _, _, _⟩
      · have hkj : k ≤ junk.length := by
          by_contra hgt
          push_neg at hgt
          exact hkmin junk.length hjlen1 hgt hwj
        have hdropw : junk.drop k ++ (Fdone ++ Fr1) = w.drop k := by
          rw [hwd, List.drop_append_of_le_length hkj]
        have hsrtake : sr.buffer.take sr.pos = junk.drop k ++ (Fdone ++ Fr1) := by
          refine byteAt_ext ?_ ?_
          · have h1 : (sr.buffer.take sr.pos).length = sr.pos := by
              simp [List.length_take]
              omega
            have h2 : (junk.drop k ++ (Fdone ++ Fr1)).length = 25 - k := by
              simp
              omega
            omega
          · intro t ht
            have h1 : (sr.buffer.take sr.pos).length = sr.pos := by
              simp [List.length_take]
              omega
            have htp : t < sr.pos := by omega
            have ht25 : t < 25 - k := by omega
            rw [byteAt_take _ _ _ htp, hkshift t ht25, hdropw, byteAt_drop]
        obtain ⟨c2, s3, out3, hc2, hfeed3, hok3, hl3, hp3⟩ :=
          ih (n - k) (by omega) (junk.drop k) (Fdone ++ Fr1) Fr2 sr
            (by simp; omega) hsrlen
            (by simp; omega)
            hsrpos (by simp; omega) hsrtake
            (by rw [hsplit, ← hFr12, List.append_assoc])
        refine ⟨Fr1.length + c2, s3, outw ++ out3, ?_, ?_, ?_, hl3, hp3⟩
        · have : Fr2.length = Frem.length - Fr1.length := by
            rw [hFr1len, hFr2]
            simp
          omega
        · have htake : Frem.take (Fr1.length + c2) = Fr1 ++ Fr2.take c2 := by
            rw [hFr1len, List.take_add]
          rw [htake]
          exact feedAll_append Fr1 (Fr2.take c2) s sr s3 outw out3 hfeedw hfeed3
        · rw [okCount_append]
          omega
      · exact absurd (hnone junk.length hjlen1 (by omega)) (by simp [hwj])

theorem take_eq_of_byteAt {l m : List Nat} {p : Nat} (hp : p ≤ l.length)
    (hm : m.length = p) (h : ∀ t, t < p → byteAt l t = byteAt m t) :
    l.take p = m := by
  refine byteAt_ext ?_ ?_
  · simp [List.length_take]
    omega
  · intro t ht
    have htp : t < p := by
      simp [List.length_take] at ht
      omega
    rw [byteAt_take _ _ _ htp]
    exact h t htp

/-- Delivery lemma: from any well-formed parser state, feeding a valid frame
decodes at least one packet within the frame's 25 bytes. -/
theorem frameDelivery (F : List Nat) (hF : ValidFrame F) :
    ∀ (s : StreamingParser), s.buffer.length = 25 → s.pos ≤ 24 →
      ∃ c s2 out, c ≤ 25 ∧ feedAll s (F.take c) = some (s2, out) ∧
        1 ≤ okCount out ∧ s2.buffer.length = 25 ∧ s2.pos ≤ 24 := by
  intro s hlen hp24
  have hFlen : F.length = 25 := hF.1
  obtain ⟨hd, Ftail, hcons⟩ : ∃ hd tl, F = hd :: tl := by
    cases F with
    | nil => simp at hFlen
    | cons a t => exact ⟨a, t, rfl⟩
  have hhd : hd = 15 := by
    have := hF.2.1
    rw [hcons] at this
    simpa [byteAt, readAt] using this
  subst hhd
  have htail : Ftail.length = 24 := by
    rw [hcons] at hFlen
    simpa using hFlen
  by_cases h0 : s.pos = 0
  · obtain ⟨buf2, hw⟩ := writeAt_isSome 15 (show 0 < s.buffer.length by omega)
    have hpush := pushByte_seek_hit h0 hw
    obtain ⟨c2, s2, out, hc2, hfeed, hok, hl, hp⟩ :=
      junked F hF 0 [] [15] Ftail { s with buffer := buf2, pos := 1 }
        rfl (by simpa using (writeAt_length hw).trans hlen)
        (by simp) (by simp) (by simp)
        (by simpa using take_writeAt hw)
        hcons
    refine ⟨1 + c2, s2, out, by omega, ?_, hok, hl, hp⟩
    have htk : F.take (1 + c2) = 15 :: Ftail.take c2 := by
      rw [hcons, Nat.add_comm]
      rfl
    rw [htk, feedAll_cons_skip hpush]
    exact hfeed
  · obtain ⟨buf2, hw⟩ := writeAt_isSome 15 (show s.pos < s.buffer.length by omega)
    by_cases h24 : s.pos = 24
    · -- the header byte completes a failing window; resync retains it
      have hw24 : writeAt s.buffer 24 15 = some buf2 := by rwa [h24] at hw
      have hbuf2 : buf2 = s.buffer.take 24 ++ [15] :=
        writeAt_full hw24 (by omega)
      have hlen2 : buf2.length = 25 := (writeAt_length hw24).trans hlen
      have hb24 : byteAt buf2 24 = 15 := byteAt_writeAt_eq hw24
      obtain ⟨sr, hrs, hsrlen, hsrpos, _, _, hdisj⟩ :=
        resync_char (s := ⟨buf2, 25, s.stats⟩) (by simpa using hlen2) (by simp)
      have hpc := pushByte_complete h24 hw
      rw [if_neg (by norm_num), hrs] at hpc
      rcases hdisj with ⟨k, hk1, hk24, hk15, hkmin, hkpos, _, hkshift⟩ |
        ⟨hnone, _, _, _⟩
      · have hkpos2 : sr.pos = 25 - k := hkpos
        have hjunk : ((s.buffer.take 24).drop k).length = 24 - k := by
          simp [List.length_take]
          omega
        have hsrtake : sr.buffer.take sr.pos = (s.buffer.take 24).drop k ++ [15] := by
          refine take_eq_of_byteAt (by omega) (by simp [hjunk]; omega) ?_
          intro t ht
          have ht2 : t < 25 - k := by omega
          rw [hkshift t ht2]
          have : byteAt buf2 (k + t) = byteAt (s.buffer.take 24 ++ [15]) (k + t) := by
            rw [hbuf2]
          rw [this, ← byteAt_drop _ k t,
            List.drop_append_of_le_length (by simp [List.length_take]; omega)]
        obtain ⟨c2, s2, out, hc2, hfeed, hok, hl, hp⟩ :=
          junked F hF (24 - k) ((s.buffer.take 24).drop k) [15] Ftail sr
            hjunk hsrlen (by simp [hjunk]; omega) hsrpos (by simp) hsrtake hcons
        refine ⟨1 + c2, s2, out, by omega, ?_, hok, hl, hp⟩
        have htk : F.take (1 + c2) = 15 :: Ftail.take c2 := by
          rw [hcons, Nat.add_comm]
          rfl
        rw [htk, feedAll_cons_skip hpc]
        exact hfeed
      · exact absurd (hnone 24 (by omega) (by omega)) (by simp [hb24])
    · -- the header byte extends the current accumulation
      have hpush := pushByte_acc (by omega) (by omega) hw
      have hjunk : (s.buffer.take s.pos).length = s.pos := by
        simp [List.length_take]
        omega
      obtain ⟨c2, s2, out, hc2, hfeed, hok, hl, hp⟩ :=
        junked F hF s.pos (s.buffer.take s.pos) [15] Ftail
          { s with buffer := buf2, pos := s.pos + 1 }
          hjunk (by simpa using (writeAt_length hw).trans hlen)
          (by simp [hjunk]) (by simp; omega) (by simp)
          (by simpa using take_writeAt hw) hcons
      refine ⟨1 + c2, s2, out, by omega, ?_, hok, hl, hp⟩
      have htk : F.take (1 + c2) = 15 :: Ftail.take c2 := by
        rw [hcons, Nat.add_comm]
        rfl
      rw [htk, feedAll_cons_skip hpush]
      exact hfeed

theorem pushByte_shape {s s2 : StreamingParser} {b : Nat}
    {r : Except SbusError (Option SbusPacket)} (hlen : s.buffer.length = 25)
    (hpos : s.pos ≤ 24) (h : pushByte s b = some (s2, r)) :
    s2.buffer.length = 25 ∧ s2.pos ≤ 24 ∧
      ((s.pos = 0 ∧ b ≠ 15 ∧ r = .ok none ∧ s2.buffer = s.buffer ∧ s2.pos = 0 ∧
          s2.stats.frames_decoded = s.stats.frames_decoded ∧
          s2.stats.sync_losses = s.stats.sync_losses ∧
          s2.stats.bytes_discarded = satAdd s.stats.bytes_discarded 1) ∨
       (s.pos = 0 ∧ b = 15 ∧ r = .ok none ∧ s2.pos = 1 ∧ byteAt s2.buffer 0 = 15 ∧
          s2.stats = s.stats) ∨
       (0 < s.pos ∧ s.pos < 24 ∧ r = .ok none ∧ s2.pos = s.pos + 1 ∧
          byteAt s2.buffer 0 = byteAt s.buffer 0 ∧ s2.stats = s.stats) ∨
       (s.pos = 24 ∧ b = 0 ∧ (∃ p, r = .ok (some p)) ∧ s2.pos = 0 ∧
          s2.stats.frames_decoded = satAdd s.stats.frames_decoded 1 ∧
          s2.stats.sync_losses = s.stats.sync_losses ∧
          s2.stats.bytes_discarded = s.stats.bytes_discarded) ∨
       (s.pos = 24 ∧ ((∃ e, r = .error e) ∨ r = .ok none) ∧
          (0 < s2.pos → byteAt s2.buffer 0 = 15) ∧
          s2.stats.frames_decoded = s.stats.frames_decoded ∧
          s2.stats.sync_losses = satAdd s.stats.sync_losses 1 ∧
          min s.stats.bytes_discarded U32_MAX ≤ s2.stats.bytes_discarded)) := by
  obtain ⟨s3, r3, heq, c1, c2, cd⟩ := pushByte_step hlen hpos b
  rw [h] at heq
  obtain ⟨h1, h2⟩ : s2 = s3 ∧ r = r3 :=
    ⟨congrArg Prod.fst (Option.some.inj heq), congrArg Prod.snd (Option.some.inj heq)⟩
  subst h1
  subst h2
  exact ⟨c1, c2, cd⟩

theorem okCount_bound :
    ∀ (data : List Nat) (s s2 : StreamingParser)
      (out : List (Except SbusError SbusPacket)),
      s.buffer.length = 25 → s.pos ≤ 24 → feedAll s data = some (s2, out) →
      25 * okCount out ≤ s.pos + data.length := by
  intro data
  induction data with
  | nil =>
    intro s s2 out _ _ h
    simp only [feedAll, Option.some.injEq, Prod.mk.injEq] at h
    rw [← h.2]
    simp [okCount]
  | cons x t ih =>
    intro s s2 out hlen hpos h
    cases hp : pushByte s x with
    | none => rw [feedAll_cons_none hp] at h; simp at h
    | some pr =>
      obtain ⟨sp, r⟩ := pr
      obtain ⟨d1, d2, dd⟩ := pushByte_shape hlen hpos hp
      have hple : sp.pos ≤ s.pos + 1 := by
        rcases dd with ⟨_, _, _, _, hp2, _⟩ | ⟨_, _, _, hp2, _⟩ |
          ⟨_, _, _, hp2, _⟩ | ⟨hp24, _, _, hp2, _⟩ | ⟨hp24, _⟩
        · omega
        · omega
        · omega
        · omega
        · omega
      cases r with
      | error e =>
        rw [feedAll_cons_err hp] at h
        cases hf : feedAll sp t with
        | none => rw [hf] at h; simp at h
        | some fr =>
          obtain ⟨s3, out3⟩ := fr
          rw [hf] at h
          have h3 : some ((s3 : StreamingParser), Except.error e :: out3) =
              some (s2, out) := h
          obtain ⟨hs, ho⟩ : s3 = s2 ∧ Except.error e :: out3 = out :=
            ⟨congrArg Prod.fst (Option.some.inj h3),
             congrArg Prod.snd (Option.some.inj h3)⟩
          subst hs
          rw [← ho]
          have := ih sp s3 out3 d1 d2 hf
          simp only [okCount, List.length_cons]
          omega
      | ok op =>
        cases op with
        | none =>
          rw [feedAll_cons_skip hp] at h
          have := ih sp s2 out d1 d2 h
          simp only [List.length_cons]
          omega
        | some p =>
          rw [feedAll_cons_ok hp] at h
          cases hf : feedAll sp t with
          | none => rw [hf] at h; simp at h
          | some fr =>
            obtain ⟨s3, out3⟩ := fr
            rw [hf] at h
            have h3 : some ((s3 : StreamingParser), Except.ok p :: out3) =
                some (s2, out) := h
            obtain ⟨hs, ho⟩ : s3 = s2 ∧ Except.ok p :: out3 = out :=
              ⟨congrArg Prod.fst (Option.some.inj h3),
               congrArg Prod.snd (Option.some.inj h3)⟩
            subst hs
            rw [← ho]
            have hb := ih sp s3 out3 d1 d2 hf
            have hp24 : s.pos = 24 ∧ sp.pos = 0 := by
              rcases dd with ⟨_, _, hr, _⟩ | ⟨_, _, hr, _⟩ | ⟨_, _, hr, _⟩ |
                ⟨h4, _, _, h5, _⟩ | ⟨_, hror, _⟩
              · simp at hr
              · simp at hr
              · simp at hr
              · exact ⟨h4, h5⟩
              · rcases hror with ⟨e, he⟩ | he <;> simp at he
            simp only [okCount, List.length_cons]
            omega

theorem losses_mono :
    ∀ (data : List Nat) (s s2 : StreamingParser)
      (out : List (Except SbusError SbusPacket)),
      s.buffer.length = 25 → s.pos ≤ 24 → feedAll s data = some (s2, out) →
      min s.stats.sync_losses U32_MAX ≤ s2.stats.sync_losses := by
  intro data
  induction data with
  | nil =>
    intro s s2 out _ _ h
    simp only [feedAll, Option.some.injEq, Prod.mk.injEq] at h
    rw [← h.1]
    simp
  | cons x t ih =>
    intro s s2 out hlen hpos h
    cases hp : pushByte s x with
    | none => rw [feedAll_cons_none hp] at h; simp at h
    | some pr =>
      obtain ⟨sp, r⟩ := pr
      obtain ⟨d1, d2, dd⟩ := pushByte_shape hlen hpos hp
      have hstep : min s.stats.sync_losses U32_MAX ≤ sp.stats.sync_losses := by
        rcases dd with ⟨_, _, _, _, _, _, hl2, _⟩ | ⟨_, _, _, _, _, hst⟩ |
          ⟨_, _, _, _, _, hst⟩ | ⟨_, _, _, _, _, hl2, _⟩ | ⟨_, _, _, _, hl2, _⟩
        · rw [hl2]; omega
        · rw [hst]; omega
        · rw [hst]; omega
        · rw [hl2]; omega
        · rw [hl2]
          exact min_le_satAdd _ _
      have hrest : ∃ outr, feedAll sp t = some (s2, outr) := by
        cases r with
        | error e =>
          rw [feedAll_cons_err hp] at h
          cases hf : feedAll sp t with
          | none => rw [hf] at h; simp at h
          | some fr =>
            obtain ⟨s3, out3⟩ := fr
            rw [hf] at h
            have h3 : some ((s3 : StreamingParser), Except.error e :: out3) =
                some (s2, out) := h
            have hs : s3 = s2 := congrArg Prod.fst (Option.some.inj h3)
            exact ⟨out3, by rw [hs]⟩
        | ok op =>
          cases op with
          | none =>
            rw [feedAll_cons_skip hp] at h
            exact ⟨out, h⟩
          | some p =>
            rw [feedAll_cons_ok hp] at h
            cases hf : feedAll sp t with
            | none => rw [hf] at h; simp at h
            | some fr =>
              obtain ⟨s3, out3⟩ := fr
              rw [hf] at h
              have h3 : some ((s3 : StreamingParser), Except.ok p :: out3) =
                  some (s2, out) := h
              have hs : s3 = s2 := congrArg Prod.fst (Option.some.inj h3)
              exact ⟨out3, by rw [hs]⟩
      obtain ⟨outr, hf⟩ := hrest
      have := ih sp s2 outr d1 d2 hf
      have h4 : min sp.stats.sync_losses U32_MAX ≤ s2.stats.sync_losses := this
      omega

/-- Feeding only non-header bytes from a seeking-header state: nothing is
yielded, the cursor stays 0, and the discarded counter grows by one per byte,
saturating at the u32 maximum. -/
theorem noiseFeed :
    ∀ (data : List Nat) (s : StreamingParser), s.pos = 0 →
      s.stats.bytes_discarded ≤ U32_MAX →
      (∀ b ∈ data, b ≠ 15) →
      feedAll s data = some ({ s with stats := { s.stats with
        bytes_discarded := satAdd s.stats.bytes_discarded data.length } }, []) := by
  intro data
  induction data with
  | nil =>
    intro s hpos hle hnb
    simp only [feedAll, List.length_nil]
    have h0 : satAdd s.stats.bytes_discarded 0 = s.stats.bytes_discarded := by
      simp only [satAdd, U32_MAX] at hle ⊢
      omega
    rw [h0]
  | cons x t ih =>
    intro s hpos hle hnb
    have hx : x ≠ 15 := hnb x (by simp)
    rw [feedAll_cons_skip (pushByte_seek_miss hpos hx),
      ih _ (by simp [hpos]) (by simp [satAdd]) (fun b hb => hnb b (by simp [hb]))]
    simp [satAdd_comp, Nat.add_comm]

theorem reach_feed {s s2 : StreamingParser} {data : List Nat}
    {out : List (Except SbusError SbusPacket)} (hr : Reachable s)
    (h : feedAll s data = some (s2, out)) : Reachable s2 := by
  refine Reachable.chunk hr (show drainIter s data = some (s2, out) from ?_)
  rw [drainIter, drainFuel_eq_feedAll _ _ _ (by omega)]
  exact h

theorem reachable_wf {s : StreamingParser} (h : Reachable s) : Wf s := by
  induction h with
  | new => exact ⟨by simp [StreamingParser.new], by simp [StreamingParser.new],
      by simp [StreamingParser.new]⟩
  | push hr hp ih => exact pushByte_wf ih hp
  | chunk hr hd ih =>
    rename_i s1 s3 data out
    rw [drainIter, drainFuel_eq_feedAll _ _ _ (by omega)] at hd
    obtain ⟨s4, out4, heq, hwf⟩ := feedAll_wf ih
    rw [hd] at heq
    have : s3 = s4 := congrArg Prod.fst (Option.some.inj heq)
    rw [this]
    exact hwf
  | reset hr ih =>
    exact ⟨ih.1, by simp [StreamingParser.reset], by simp [StreamingParser.reset]⟩

theorem feedAll_sinv (data : List Nat) :
    ∀ {s : StreamingParser}, s.buffer.length = 25 → s.pos ≤ 24 →
      ∃ s2 out, feedAll s data = some (s2, out) ∧ s2.buffer.length = 25 ∧
        s2.pos ≤ 24 := by
  induction data with
  | nil =>
    intro s h1 h2
    exact ⟨s, [], rfl, h1, h2⟩
  | cons x t ih =>
    intro s h1 h2
    obtain ⟨s2, r, heq, c1, c2, _⟩ := pushByte_step h1 h2 x
    obtain ⟨s3, out, hf, d1, d2⟩ := ih c1 c2
    cases r with
    | error e => exact ⟨s3, .error e :: out, by rw [feedAll_cons_err heq, hf]; rfl, d1, d2⟩
    | ok op =>
      cases op with
      | none => exact ⟨s3, out, by rw [feedAll_cons_skip heq, hf], d1, d2⟩
      | some p => exact ⟨s3, .ok p :: out, by rw [feedAll_cons_ok heq, hf]; rfl, d1, d2⟩

/-- Feeding a valid frame whose footer byte was replaced by 0xFF into a fresh
parser accumulates the whole 25-byte window, fails the footer check, and
resynchronizes: no output, one recorded sync loss. -/
theorem corruptPhase {F1 : List Nat} (hF1 : ValidFrame F1) :
    ∃ s1, feedAll StreamingParser.new (F1.take 24 ++ [255]) = some (s1, []) ∧
      s1.buffer.length = 25 ∧ s1.pos ≤ 24 ∧ s1.stats.sync_losses = 1 := by
  have hFlen : F1.length = 25 := hF1.1
  obtain ⟨hd, Ft, hcons⟩ : ∃ hd tl, F1 = hd :: tl := by
    cases F1 with
    | nil => simp at hFlen
    | cons a t => exact ⟨a, t, rfl⟩
  have hhd : hd = 15 := by
    have := hF1.2.1
    rw [hcons] at this
    simpa [byteAt, readAt] using this
  subst hhd
  have htl : Ft.length = 24 := by
    rw [hcons] at hFlen
    simpa using hFlen
  have hdecomp : F1.take 24 ++ [255] = 15 :: (Ft.take 23 ++ [255]) := by
    rw [hcons]
    rfl
  have hw : writeAt StreamingParser.new.buffer 0 15 = some (15 :: List.replicate 24 0) := by
    rfl
  have hpush := pushByte_seek_hit (s := StreamingParser.new) rfl hw
  set s1 : StreamingParser :=
    { StreamingParser.new with buffer := 15 :: List.replicate 24 0, pos := 1 } with hs1
  have hlen1 : s1.buffer.length = 25 := by simp [hs1]
  have hl23 : (Ft.take 23 ++ [255]).length = 24 := by
    simp [List.length_take]
    omega
  obtain ⟨_, _, fF⟩ := fill (Ft.take 23 ++ [255]) s1
    (s1.buffer.take 1 ++ (Ft.take 23 ++ [255])) hlen1 (by simp [hs1])
    (by simp [hs1]) (by simp [hs1, hl23]) rfl
  have hwlen : (s1.buffer.take 1).length = 1 := by
    simp [hs1]
  have hfo : byteAt (s1.buffer.take 1 ++ (Ft.take 23 ++ [255])) 24 ≠ 0 := by
    rw [byteAt_append_right _ _ (by omega)]
    have hlt : (Ft.take 23).length = 23 := by
      simp [List.length_take]
      omega
    have h255 : byteAt (Ft.take 23 ++ [255]) 23 = 255 := by
      rw [byteAt_append_right _ _ (by omega), hlt]
      simp [byteAt, readAt]
    rw [hwlen, h255]
    omega
  obtain ⟨sr, hrs, hfd⟩ := fF hfo
  obtain ⟨sr2, hrs2, hsrlen, hsrpos, _, hsl, _⟩ :=
    resync_char (s := ⟨s1.buffer.take 1 ++ (Ft.take 23 ++ [255]), 25, s1.stats⟩)
      (by simp [hwlen, hl23]) (by simp)
  rw [hrs] at hrs2
  have hsr : sr2 = sr := (Option.some.inj hrs2).symm
  rw [hsr] at hsrlen hsrpos hsl
  refine ⟨sr, ?_, hsrlen, hsrpos, ?_⟩
  · rw [hdecomp, feedAll_cons_skip hpush]
    exact hfd
  · rw [hsl]
    simp [hs1, StreamingParser.new, satAdd, U32_MAX]

/-- States with an arbitrarily large discarded-byte counter are reachable:
push n noise bytes into a fresh parser one at a time. -/
theorem discReachable : ∀ n : Nat,
    Reachable ⟨List.replicate 25 0, 0, ⟨0, 0, min n U32_MAX⟩⟩ := by
  intro n
  induction n with
  | zero =>
    have h0 : min 0 U32_MAX = 0 := by simp
    rw [h0]
    exact Reachable.new
  | succ m ih =>
    have heq : satAdd (min m U32_MAX) 1 = min (m + 1) U32_MAX := by
      simp only [satAdd, U32_MAX]
      omega
    have hp2 : pushByte (⟨List.replicate 25 0, 0, ⟨0, 0, min m U32_MAX⟩⟩ :
          StreamingParser) 1 =
        some (⟨List.replicate 25 0, 0, ⟨0, 0, min (m + 1) U32_MAX⟩⟩, .ok none) := by
      rw [pushByte_seek_miss rfl (by omega)]
      rw [show satAdd
          (⟨List.replicate 25 0, 0, ⟨0, 0, min m U32_MAX⟩⟩ :
            StreamingParser).stats.bytes_discarded 1 = min (m + 1) U32_MAX from heq]
    exact Reachable.push ih hp2

/-- The state with a saturated discarded-byte counter is reachable: feed
2^32 - 1 noise bytes into a fresh parser. -/
theorem satReachable :
    Reachable ⟨List.replicate 25 0, 0, ⟨0, 0, U32_MAX⟩⟩ := by
  have h := discReachable U32_MAX
  rwa [min_self] at h

/-- Feeding the all-zero frame from a frame-aligned idle state decodes one
packet and leaves the parser idle again; only frames_decoded changes. -/
theorem zframeStep (st : StreamingStats) :
    feedAll ⟨zeroFrame, 0, st⟩ zeroFrame =
      some (⟨zeroFrame, 0,
        ⟨satAdd st.frames_decoded 1, st.sync_losses, st.bytes_discarded⟩⟩,
        [.ok zeroPacket]) := by
  have hw : writeAt (⟨zeroFrame, 0, st⟩ : StreamingParser).buffer 0 15 =
      some zeroFrame := by
    rfl
  have hpush := pushByte_seek_hit (s := ⟨zeroFrame, 0, st⟩) rfl hw
  have hfill := fill (List.replicate 24 0) ⟨zeroFrame, 1, st⟩ zeroFrame
    (by simp [zeroFrame]) (by simp) (by simp) (by simp)
    (by rfl)
  have hfa : SbusPacket.fromArray zeroFrame = .ok zeroPacket := by
    rfl
  have h1 := hfill.1 zeroPacket (by decide) hfa
  rw [show feedAll (⟨zeroFrame, 0, st⟩ : StreamingParser) zeroFrame =
      feedAll ⟨zeroFrame, 1, st⟩ (List.replicate 24 0)
    from feedAll_cons_skip hpush (List.replicate 24 0)]
  rw [h1]

/-- States with an arbitrarily large frames_decoded counter are reachable:
feed the all-zero frame n + 1 times. -/
theorem framesReachable : ∀ n : Nat,
    Reachable ⟨zeroFrame, 0, ⟨min (n + 1) U32_MAX, 0, 0⟩⟩ := by
  intro n
  induction n with
  | zero =>
    have h : feedAll StreamingParser.new zeroFrame =
        some (⟨zeroFrame, 0, ⟨1, 0, 0⟩⟩, [.ok zeroPacket]) := by
      have := zframeStep ⟨0, 0, 0⟩
      have hnew : StreamingParser.new = ⟨zeroFrame, 0, ⟨0, 0, 0⟩⟩ → True := fun _ => trivial
      -- new differs from the aligned state only in the buffer content
      have hw : writeAt StreamingParser.new.buffer 0 15 =
          some zeroFrame := by rfl
      have hpush := pushByte_seek_hit (s := StreamingParser.new) rfl hw
      have hfill := fill (List.replicate 24 0)
        ⟨zeroFrame, 1, StreamingParser.new.stats⟩ zeroFrame
        (by simp [zeroFrame]) (by simp) (by simp) (by simp) (by rfl)
      have h1 := hfill.1 zeroPacket (by decide) (by rfl)
      rw [show feedAll StreamingParser.new zeroFrame =
          feedAll ⟨zeroFrame, 1, StreamingParser.new.stats⟩ (List.replicate 24 0)
        from feedAll_cons_skip hpush (List.replicate 24 0)]
      rw [h1]
      rfl
    have hre := reach_feed Reachable.new h
    have : (⟨zeroFrame, 0, ⟨1, 0, 0⟩⟩ : StreamingParser) =
        ⟨zeroFrame, 0, ⟨min 1 U32_MAX, 0, 0⟩⟩ := by
      simp [U32_MAX]
    rwa [this] at hre
  | succ m ih =>
    have h := zframeStep ⟨min (m + 1) U32_MAX, 0, 0⟩
    have heq : satAdd (min (m + 1) U32_MAX) 1 = min (m + 1 + 1) U32_MAX := by
      simp only [satAdd, U32_MAX]
      omega
    rw [show (⟨satAdd (⟨min (m + 1) U32_MAX, 0, 0⟩ : StreamingStats).frames_decoded 1,
        (⟨min (m + 1) U32_MAX, 0, 0⟩ : StreamingStats).sync_losses,
        (⟨min (m + 1) U32_MAX, 0, 0⟩ : StreamingStats).bytes_discarded⟩ : StreamingStats) =
        ⟨min (m + 1 + 1) U32_MAX, 0, 0⟩ by
      simp only
      rw [heq]] at h
    exact reach_feed ih h

/-- The mid-frame state with a saturated frames_decoded counter is reachable. -/
theorem satFramesReachable :
    Reachable ⟨zeroFrame, 24, ⟨U32_MAX, 0, 0⟩⟩ := by
  have h1 : Reachable ⟨zeroFrame, 0, ⟨U32_MAX, 0, 0⟩⟩ := by
    have := framesReachable (U32_MAX - 1)
    have heq : min (U32_MAX - 1 + 1) U32_MAX = U32_MAX := by
      simp [U32_MAX]
    rwa [heq] at this
  have h2 : feedAll ⟨zeroFrame, 0, ⟨U32_MAX, 0, 0⟩⟩ (15 :: List.replicate 23 0) =
      some (⟨zeroFrame, 24, ⟨U32_MAX, 0, 0⟩⟩, []) := by
    rfl
  exact reach_feed h1 h2

/-- C1: every state reachable from StreamingParser::new() by any interleaving of
push_byte, push_bytes and reset satisfies pos ≤ 25, pos is never observed at 25
after a call returns, and whenever pos > 0 the buffer starts with the header
byte 0x0F. -/
theorem claim1_state_invariant {s : StreamingParser} (h : Reachable s) :
    s.pos ≤ 25 ∧ s.pos ≠ 25 ∧ (0 < s.pos → byteAt s.buffer 0 = 15) := by
  obtain ⟨_, h2, h3⟩ := reachable_wf h
  exact ⟨by omega, by omega, h3⟩

/-- Witness for C1 at the freshly created parser. -/
theorem claim1_witness :
    StreamingParser.new.pos ≤ 25 ∧ StreamingParser.new.pos ≠ 25 ∧
      (0 < StreamingParser.new.pos → byteAt StreamingParser.new.buffer 0 = 15) :=
  claim1_state_invariant Reachable.new

/-- C3: exhausting the iterator returned by push_bytes on a chunk produces
exactly the outcome sequence (packets and errors, in input order) that feeding
the same bytes one by one through push_byte produces, and it leaves the parser
in the same final state; an error item does not stop the iteration, which
resumes with the following byte of the chunk. -/
theorem claim3_chunk_byte_equivalence (s : StreamingParser) (data : List Nat) :
    drainIter s data = feedAll s data := by
  rw [drainIter]
  exact drainFuel_eq_feedAll _ _ _ (by omega)

/-- C5: from any 25-byte-buffer state with pos = 24, pushing a byte other than
the footer value completes the frame, invokes resynchronization on the full
window, and returns Ok(None): no error is surfaced to the caller. -/
theorem claim5_footer_mismatch_no_error (s : StreamingParser) (b : Nat)
    (hlen : s.buffer.length = 25) (hpos : s.pos = 24) (hb : b ≠ 0) :
    ∃ s2 buf2, writeAt s.buffer 24 b = some buf2 ∧
      resync ⟨buf2, 25, s.stats⟩ = some s2 ∧
      pushByte s b = some (s2, .ok none) := by
  obtain ⟨buf2, hw⟩ := writeAt_isSome b (show s.pos < s.buffer.length by omega)
  have hpc := pushByte_complete hpos hw
  rw [if_neg hb] at hpc
  obtain ⟨sr, hrs, _⟩ := resync_char (s := ⟨buf2, 25, s.stats⟩)
    (by simpa using (writeAt_length hw).trans hlen) (by simp)
  rw [hrs] at hpc
  refine ⟨sr, buf2, ?_, hrs, hpc⟩
  rwa [hpos] at hw

/-- Witness for C5: a buffered header plus zeros, completed by the byte 9. -/
theorem claim5_witness :
    ∃ s2 buf2,
      writeAt (⟨zeroFrame, 24, ⟨0, 0, 0⟩⟩ : StreamingParser).buffer 24 9 = some buf2 ∧
      resync ⟨buf2, 25, (⟨zeroFrame, 24, ⟨0, 0, 0⟩⟩ : StreamingParser).stats⟩ = some s2 ∧
      pushByte ⟨zeroFrame, 24, ⟨0, 0, 0⟩⟩ 9 = some (s2, .ok none) :=
  claim5_footer_mismatch_no_error ⟨zeroFrame, 24, ⟨0, 0, 0⟩⟩ 9 (by decide) rfl
    (by decide)

/-- C9: from every reachable parser state, push_byte with any input byte
performs only in-bounds buffer accesses: the out-of-bounds (panic) branch of
the embedding is never taken, so the call returns a value. -/
theorem claim9_no_panic {s : StreamingParser} (h : Reachable s) (b : Nat) :
    ∃ s2 r, pushByte s b = some (s2, r) := by
  obtain ⟨hlen, hpos, _⟩ := reachable_wf h
  obtain ⟨s2, r, heq, _⟩ := pushByte_step hlen hpos b
  exact ⟨s2, r, heq⟩

/-- Witness for C9 at the freshly created parser and byte 0. -/
theorem claim9_witness :
    ∃ s2 r, pushByte StreamingParser.new 0 = some (s2, r) :=
  claim9_no_panic Reachable.new 0

/-- C2 (amended): resync on a full 25-byte accumulation shifts to the first
header byte found at an index k in 1..=24 (pos becomes 25 - k and the bytes at
k..=24 move to the front) or clears the buffer when none exists; the counters
grow by k (respectively 25) and by one sync loss, each with u32 saturating
arithmetic instead of the exact addition the original claim states. -/
theorem claim2_resync_policy (s : StreamingParser) (hlen : s.buffer.length = 25)
    (hpos : s.pos = 25) :
    (∀ k, 1 ≤ k → k ≤ 24 → byteAt s.buffer k = 15 →
      (∀ j, 1 ≤ j → j < k → byteAt s.buffer j ≠ 15) →
      ∃ s2, resync s = some s2 ∧ s2.pos = 25 - k ∧
        (∀ t, t < 25 - k → byteAt s2.buffer t = byteAt s.buffer (k + t)) ∧
        s2.stats.bytes_discarded = satAdd s.stats.bytes_discarded k ∧
        s2.stats.sync_losses = satAdd s.stats.sync_losses 1) ∧
    ((∀ j, 1 ≤ j → j ≤ 24 → byteAt s.buffer j ≠ 15) →
      ∃ s2, resync s = some s2 ∧ s2.pos = 0 ∧
        s2.stats.bytes_discarded = satAdd s.stats.bytes_discarded 25 ∧
        s2.stats.sync_losses = satAdd s.stats.sync_losses 1) := by
  obtain ⟨s2, hrs, _, _, _, hsl, hdisj⟩ := resync_char hlen hpos
  constructor
  · intro k hk1 hk24 hk15 hkmin
    rcases hdisj with ⟨k2, hj1, hj24, hj15, hjmin, hjpos, hjbd, hjshift⟩ |
      ⟨hnone, _, _, _⟩
    · have hkk : k2 = k := by
        rcases Nat.lt_trichotomy k2 k with h | h | h
        · exact absurd hj15 (hkmin k2 hj1 h)
        · exact h
        · exact absurd hk15 (hjmin k hk1 h)
      subst hkk
      exact ⟨s2, hrs, hjpos, hjshift, hjbd, hsl⟩
    · exact absurd hk15 (hnone k hk1 hk24)
  · intro hnoj
    rcases hdisj with ⟨k2, hj1, hj24, hj15, _, _, _, _⟩ | ⟨_, hp0, _, hbd⟩
    · exact absurd hj15 (hnoj k2 hj1 hj24)
    · refine ⟨s2, hrs, hp0, ?_, hsl⟩
      rw [hbd]

/-- Witness for C2 at a concrete full window whose first retained header sits
at index 1. -/
theorem claim2_witness :
    ∃ s2, resync ⟨[15, 15] ++ List.replicate 22 0 ++ [255], 25, ⟨0, 0, 0⟩⟩ =
        some s2 ∧ s2.pos = 25 - 1 ∧
      (∀ t, t < 25 - 1 →
        byteAt s2.buffer t =
          byteAt ((⟨[15, 15] ++ List.replicate 22 0 ++ [255], 25, ⟨0, 0, 0⟩⟩ :
            StreamingParser)).buffer (1 + t)) ∧
      s2.stats.bytes_discarded = satAdd 0 1 ∧
      s2.stats.sync_losses = satAdd 0 1 :=
  (claim2_resync_policy ⟨[15, 15] ++ List.replicate 22 0 ++ [255], 25, ⟨0, 0, 0⟩⟩
      (by decide) rfl).1 1 (by decide) (by decide) (by decide)
    (fun j h1 h2 => absurd (lt_of_le_of_lt h1 h2) (by omega))

/-- Counterexample to C2 as stated: the counters are u32 values updated with
saturating_add, so at a reachable state with bytes_discarded = 2^32 - 1 a
resync that retains from index k = 1 leaves the counter unchanged instead of
increasing it by exactly 1. -/
theorem claim2_cex :
    Reachable ⟨List.replicate 25 0, 0, ⟨0, 0, 4294967295⟩⟩ ∧
    feedAll ⟨List.replicate 25 0, 0, ⟨0, 0, 4294967295⟩⟩
        ([15, 15] ++ List.replicate 22 0 ++ [255]) =
      some (⟨15 :: (List.replicate 22 0 ++ [255, 255]), 24,
        ⟨0, 1, 4294967295⟩⟩, []) ∧
    byteAt ([15, 15] ++ List.replicate 22 0 ++ [255]) 1 = 15 ∧
    (4294967295 : Nat) ≠ 4294967295 + 1 := by
  refine ⟨satReachable, by rfl, by decide, by decide⟩

/-- C4 (amended): feeding any sequence of non-header bytes from a seeking-header
state (pos = 0, discarded counter a u32 value) yields no packet and no error,
leaves pos = 0, and adds one to the discarded-byte counter per byte with u32
saturating arithmetic instead of the exact addition the original claim
states. -/
theorem claim4_header_gating (data : List Nat) (s : StreamingParser)
    (hpos : s.pos = 0) (hsat : s.stats.bytes_discarded ≤ U32_MAX)
    (hnb : ∀ b ∈ data, b ≠ 15) :
    feedAll s data = some ({ s with stats := { s.stats with
      bytes_discarded := satAdd s.stats.bytes_discarded data.length } }, []) :=
  noiseFeed data s hpos hsat hnb

/-- Witness for C4 on the fresh parser and three noise bytes. -/
theorem claim4_witness :
    feedAll StreamingParser.new [0, 255, 16] =
      some ({ StreamingParser.new with stats := { StreamingParser.new.stats with
        bytes_discarded :=
          satAdd StreamingParser.new.stats.bytes_discarded
            ([0, 255, 16] : List Nat).length } }, []) :=
  claim4_header_gating [0, 255, 16] StreamingParser.new rfl (by decide) (by decide)

/-- Counterexample to C4 as stated: at the reachable seeking-header state whose
discarded-byte counter already equals 2^32 - 1, a further noise byte leaves the
counter unchanged instead of incrementing it by exactly one. -/
theorem claim4_cex :
    Reachable ⟨List.replicate 25 0, 0, ⟨0, 0, 4294967295⟩⟩ ∧
    feedAll ⟨List.replicate 25 0, 0, ⟨0, 0, 4294967295⟩⟩ [0] =
      some (⟨List.replicate 25 0, 0, ⟨0, 0, 4294967295⟩⟩, []) ∧
    (4294967295 : Nat) ≠ 4294967295 + 1 := by
  refine ⟨satReachable, by rfl, by decide⟩

theorem fromArray_ok_cond {f : List Nat} {p : SbusPacket}
    (h : SbusPacket.fromArray f = .ok p) :
    byteAt f 0 = 15 ∧ byteAt f 24 = 0 ∧ Nat.land (byteAt f 23) 240 = 0 := by
  unfold SbusPacket.fromArray at h
  split_ifs at h with h1 h2 h3
  refine ⟨?_, ?_, ?_⟩
  · simpa [SBUS_HEADER] using h1
  · simpa [SBUS_FOOTER] using h2
  · simpa using h3

theorem fromArray_error_cond {f : List Nat} {e : SbusError}
    (h : SbusPacket.fromArray f = .error e) :
    byteAt f 0 ≠ 15 ∨ byteAt f 24 ≠ 0 ∨ Nat.land (byteAt f 23) 240 ≠ 0 := by
  unfold SbusPacket.fromArray at h
  split_ifs at h with h1 h2 h3
  · exact Or.inl (by simpa [SBUS_HEADER] using h1)
  · exact Or.inr (Or.inl (by simpa [SBUS_FOOTER] using h2))
  · exact Or.inr (Or.inr (by simpa using h3))

/-- C6 (amended): push_byte surfaces an error exactly when a byte completes a
full 25-byte span whose outer footer check passes (the completing byte is 0x00)
but whose decode fails: the buffered header byte is not 0x0F (unreachable from
reachable states) or the reserved flag bits are set. In particular noise bytes
at pos = 0 never produce an error, and a footer-mismatched span produces no
error either — contrary to the original claim, which also made a
footer-mismatched span an error. -/
theorem claim6_error_characterization (s : StreamingParser) (b : Nat)
    (hlen : s.buffer.length = 25) (hpos : s.pos ≤ 24) :
    (∃ s2 e, pushByte s b = some (s2, .error e)) ↔
      (s.pos = 24 ∧ b = 0 ∧
        (byteAt s.buffer 0 ≠ 15 ∨ Nat.land (byteAt s.buffer 23) 240 ≠ 0)) := by
  by_cases h24 : s.pos = 24
  · obtain ⟨buf2, hw⟩ := writeAt_isSome b (show s.pos < s.buffer.length by omega)
    have hlen2 : buf2.length = 25 := (writeAt_length hw).trans hlen
    have hpc := pushByte_complete h24 hw
    have hb0 : byteAt buf2 0 = byteAt s.buffer 0 :=
      byteAt_writeAt_ne hw (by omega)
    have hb23 : byteAt buf2 23 = byteAt s.buffer 23 :=
      byteAt_writeAt_ne hw (by omega)
    have hb24 : byteAt buf2 24 = b := by
      have := byteAt_writeAt_eq hw
      rwa [h24] at this
    by_cases hb : b = 0
    · subst hb
      rw [if_pos rfl] at hpc
      cases hfa : SbusPacket.fromArray buf2 with
      | ok p =>
        rw [hfa] at hpc
        constructor
        · rintro ⟨s2, e, he⟩
          rw [hpc] at he
          have := congrArg Prod.snd (Option.some.inj he)
          simp at this
        · rintro ⟨_, _, hcond⟩
          obtain ⟨c0, _, c23⟩ := fromArray_ok_cond hfa
          rw [hb0] at c0
          rw [hb23] at c23
          rcases hcond with hc | hc
          · exact absurd c0 hc
          · exact absurd c23 hc
      | error e =>
        rw [hfa] at hpc
        obtain ⟨sr, hrs, _⟩ := resync_char (s := ⟨buf2, 25, s.stats⟩)
          (by simpa using hlen2) (by simp)
        rw [hrs] at hpc
        constructor
        · intro _
          refine ⟨h24, rfl, ?_⟩
          rcases fromArray_error_cond hfa with hc | hc | hc
          · exact Or.inl (by rwa [hb0] at hc)
          · exact absurd hb24 hc
          · exact Or.inr (by rwa [hb23] at hc)
        · intro _
          exact ⟨sr, e, hpc⟩
    · rw [if_neg hb] at hpc
      obtain ⟨sr, hrs, _⟩ := resync_char (s := ⟨buf2, 25, s.stats⟩)
        (by simpa using hlen2) (by simp)
      rw [hrs] at hpc
      constructor
      · rintro ⟨s2, e, he⟩
        rw [hpc] at he
        have := congrArg Prod.snd (Option.some.inj he)
        simp at this
      · rintro ⟨_, hb0', _⟩
        exact absurd hb0' hb
  · constructor
    · rintro ⟨s2, e, he⟩
      obtain ⟨_, _, hdisj⟩ := pushByte_shape hlen hpos he
      rcases hdisj with ⟨_, _, hr, _⟩ | ⟨_, _, hr, _⟩ | ⟨_, _, hr, _⟩ |
        ⟨hp24, _⟩ | ⟨hp24, _⟩
      · simp at hr
      · simp at hr
      · simp at hr
      · exact absurd hp24 h24
      · exact absurd hp24 h24
    · rintro ⟨h24', _⟩
      exact absurd h24' h24

/-- Witness for C6 on a buffered span with reserved flag bits set and a footer
byte 0x00 completing it. -/
theorem claim6_witness :
    ∃ s2 e, pushByte ⟨15 :: (List.replicate 22 0 ++ [240, 0]), 24, ⟨0, 0, 0⟩⟩ 0 =
      some (s2, .error e) :=
  (claim6_error_characterization ⟨15 :: (List.replicate 22 0 ++ [240, 0]), 24,
      ⟨0, 0, 0⟩⟩ 0 (by decide) (by decide)).mpr (by decide)

/-- Counterexample to C6 as stated: a fully buffered footer-mismatched 25-byte
span (header plus 23 zeros completed by the byte 0xFF) completes on the fresh
parser — the sync-loss counter shows the failed full window — yet the outcome
list is empty: no error is surfaced for a footer mismatch, only resync. -/
theorem claim6_cex :
    feedAll StreamingParser.new (15 :: (List.replicate 23 0 ++ [255])) =
      some (⟨15 :: (List.replicate 23 0 ++ [255]), 0, ⟨0, 1, 25⟩⟩, []) := by
  rfl

/-- C10 (amended): whenever push_byte returns Ok(Some(packet)), the call sets
pos to 0, leaves sync_losses and bytes_discarded unchanged, and increments
frames_decoded by one with u32 saturating arithmetic instead of the exact
addition the original claim states. -/
theorem claim10_decode_frame_effect {s s2 : StreamingParser} {b : Nat}
    {p : SbusPacket} (h : pushByte s b = some (s2, .ok (some p))) :
    s2.stats.frames_decoded = satAdd s.stats.frames_decoded 1 ∧
    s2.stats.sync_losses = s.stats.sync_losses ∧
    s2.stats.bytes_discarded = s.stats.bytes_discarded ∧ s2.pos = 0 := by
  simp only [pushByte] at h
  split at h
  · split at h
    · split at h
      · exact absurd h (by simp)
      · have := congrArg Prod.snd (Option.some.inj h)
        simp at this
    · have := congrArg Prod.snd (Option.some.inj h)
      simp at this
  · split at h
    · exact absurd h (by simp)
    · split at h
      · split at h
        · exact absurd h (by simp)
        · split at h
          · split at h
            · have h1 := Option.some.inj h
              have hs2 : s2 = { buffer := _, pos := 0, stats := { s.stats with
                  frames_decoded := satAdd s.stats.frames_decoded 1 } } :=
                (congrArg Prod.fst h1).symm
              rw [hs2]
              exact ⟨rfl, rfl, rfl, rfl⟩
            · split at h
              · exact absurd h (by simp)
              · have := congrArg Prod.snd (Option.some.inj h)
                simp at this
          · split at h
            · exact absurd h (by simp)
            · have := congrArg Prod.snd (Option.some.inj h)
              simp at this
      · have := congrArg Prod.snd (Option.some.inj h)
        simp at this

/-- Witness for C10 on a concrete successful decode of the all-zero frame. -/
theorem claim10_witness :
    (⟨zeroFrame, 0, ⟨1, 0, 0⟩⟩ : StreamingParser).stats.frames_decoded =
      satAdd (⟨zeroFrame, 24, ⟨0, 0, 0⟩⟩ : StreamingParser).stats.frames_decoded 1 ∧
    (⟨zeroFrame, 0, ⟨1, 0, 0⟩⟩ : StreamingParser).stats.sync_losses =
      (⟨zeroFrame, 24, ⟨0, 0, 0⟩⟩ : StreamingParser).stats.sync_losses ∧
    (⟨zeroFrame, 0, ⟨1, 0, 0⟩⟩ : StreamingParser).stats.bytes_discarded =
      (⟨zeroFrame, 24, ⟨0, 0, 0⟩⟩ : StreamingParser).stats.bytes_discarded ∧
    (⟨zeroFrame, 0, ⟨1, 0, 0⟩⟩ : StreamingParser).pos = 0 :=
  claim10_decode_frame_effect
    (show pushByte ⟨zeroFrame, 24, ⟨0, 0, 0⟩⟩ 0 =
      some (⟨zeroFrame, 0, ⟨1, 0, 0⟩⟩, Except.ok (some zeroPacket)) by rfl)

/-- Counterexample to C10 as stated: at the reachable state whose
frames_decoded counter already equals 2^32 - 1, a successful decode returns
Ok(Some(packet)) yet leaves frames_decoded unchanged instead of incrementing it
by exactly one. -/
theorem claim10_cex :
    Reachable ⟨zeroFrame, 24, ⟨4294967295, 0, 0⟩⟩ ∧
    pushByte ⟨zeroFrame, 24, ⟨4294967295, 0, 0⟩⟩ 0 =
      some (⟨zeroFrame, 0, ⟨4294967295, 0, 0⟩⟩, .ok (some zeroPacket)) ∧
    (4294967295 : Nat) ≠ 4294967295 + 1 := by
  refine ⟨?_, by rfl, by decide⟩
  have := satFramesReachable
  simpa [U32_MAX] using this

/-- C7: for every valid frame F1 whose last byte is replaced by 0xFF, followed
by two further valid frames F2 and F3, feeding the 75 bytes into a fresh parser
yields exactly 2 decoded packets, and the sync-loss counter ends at 1 or
more. -/
theorem claim7_corrupted_footer_recovery (F1 F2 F3 : List Nat)
    (h1 : ValidFrame F1) (h2 : ValidFrame F2) (h3 : ValidFrame F3) :
    ∃ s out, feedAll StreamingParser.new ((F1.take 24 ++ [255]) ++ (F2 ++ F3)) =
        some (s, out) ∧ okCount out = 2 ∧ 1 ≤ s.stats.sync_losses := by
  obtain ⟨s1, hph, hl1, hp1, hsl1⟩ := corruptPhase h1
  obtain ⟨c2, s2, o2, hc2, hf2, hok2, hl2, hp2⟩ := frameDelivery F2 h2 s1 hl1 hp1
  obtain ⟨s3, o3, hf3, hl3, hp3⟩ := feedAll_sinv (F2.drop c2) hl2 hp2
  obtain ⟨c4, s4, o4, hc4, hf4, hok4, hl4, hp4⟩ := frameDelivery F3 h3 s3 hl3 hp3
  obtain ⟨s5, o5, hf5, hl5, hp5⟩ := feedAll_sinv (F3.drop c4) hl4 hp4
  have e1 : feedAll s3 (F3.take c4 ++ F3.drop c4) = some (s5, o4 ++ o5) :=
    feedAll_append _ _ _ _ _ _ _ hf4 hf5
  rw [List.take_append_drop] at e1
  have e2 : feedAll s2 (F2.drop c2 ++ F3) = some (s5, o3 ++ (o4 ++ o5)) :=
    feedAll_append _ _ _ _ _ _ _ hf3 e1
  have e3 : feedAll s1 (F2.take c2 ++ (F2.drop c2 ++ F3)) =
      some (s5, o2 ++ (o3 ++ (o4 ++ o5))) :=
    feedAll_append _ _ _ _ _ _ _ hf2 e2
  have hsplit : F2.take c2 ++ (F2.drop c2 ++ F3) = F2 ++ F3 := by
    rw [← List.append_assoc, List.take_append_drop]
  rw [hsplit] at e3
  have etot : feedAll StreamingParser.new ((F1.take 24 ++ [255]) ++ (F2 ++ F3)) =
      some (s5, [] ++ (o2 ++ (o3 ++ (o4 ++ o5)))) :=
    feedAll_append _ _ _ _ _ _ _ hph e3
  have hup := okCount_bound (F2 ++ F3) s1 s5 _ hl1 hp1 e3
  have hlen23 : (F2 ++ F3).length = 50 := by
    simp [h2.1, h3.1]
  rw [hlen23] at hup
  have hcounts : okCount (o2 ++ (o3 ++ (o4 ++ o5))) =
      okCount o2 + (okCount o3 + (okCount o4 + okCount o5)) := by
    simp [okCount_append]
  have hmono := losses_mono (F2 ++ F3) s1 s5 _ hl1 hp1 e3
  rw [hsl1] at hmono
  have hone : min 1 U32_MAX = 1 := by decide
  rw [hone] at hmono
  refine ⟨s5, [] ++ (o2 ++ (o3 ++ (o4 ++ o5))), etot, ?_, hmono⟩
  simp only [List.nil_append]
  omega

/-- Witness for C7 with the all-zero frame in all three positions. -/
theorem claim7_witness :
    ∃ s out, feedAll StreamingParser.new
        ((zeroFrame.take 24 ++ [255]) ++ (zeroFrame ++ zeroFrame)) =
      some (s, out) ∧ okCount out = 2 ∧ 1 ≤ s.stats.sync_losses :=
  claim7_corrupted_footer_recovery zeroFrame zeroFrame zeroFrame
    ⟨rfl, rfl, rfl, rfl⟩ ⟨rfl, rfl, rfl, rfl⟩ ⟨rfl, rfl, rfl, rfl⟩

/-- C8: for every 16-channel list with values in 0..2047 and every flag
combination, unpacking the frame produced by packing returns exactly the
original channels and flags. -/
theorem claim8_roundtrip (cs : List Nat) (fl : SbusFlags)
    (hlen : cs.length = 16) (hin : ∀ c ∈ cs, c ≤ 2047) :
    SbusPacket.fromArray (packFrame cs fl) = .ok ⟨cs, fl⟩ := by
  have h0 := byteAt_packFrame_zero cs fl
  have h24 := byteAt_packFrame_footer cs fl
  have h23 := byteAt_packFrame_flag cs fl
  have hch : (List.range 16).map
      (fun i => payloadVal (packFrame cs fl) / 2 ^ (11 * i) % 2048) = cs := by
    refine Eq.trans (List.map_congr_left ?_) (map_range_byteAt hlen)
    intro i hi
    rw [payloadVal_packFrame fl hlen, channel_extract hlen hin (List.mem_range.mp hi)]
  have hfl : flagsOfByte (byteAt (packFrame cs fl) 23) = fl := by
    rw [h23, flagsOfByte_flagsToByte]
  unfold SbusPacket.fromArray
  rw [if_neg (by simp [h0, SBUS_HEADER]), if_neg (by simp [h24, SBUS_FOOTER]),
    if_neg (by rw [h23]; simp [flagsToByte_land fl]), hch, hfl]

/-- Witness for C8 on concrete mid-range channels with two flags set. -/
theorem claim8_witness :
    SbusPacket.fromArray (packFrame (List.replicate 16 1000)
        ⟨true, false, true, false⟩) =
      .ok ⟨List.replicate 16 1000, ⟨true, false, true, false⟩⟩ :=
  claim8_roundtrip (List.replicate 16 1000) ⟨true, false, true, false⟩
    (by decide) (by decide)

end SbusProof
